import Mathlib

/-!
Verification of the hybrid retrieval and fusion engine of the
`communiverse-bot` repository against its natural-language specification.

The development shallowly embeds the Python sources
  `src/ai-python/core/rag.py`            (chunk store, vector/BM25 index, hybrid search)
  `src/ai-python/app/pipelines/rag_plus.py` (multi-query rewrite, RRF, MMR, faithfulness)
  `src/ai-python/app/util/text.py`       (text helpers)
into Lean.  Modelling conventions used throughout:

* Python floats are modelled by `ℚ`.  Cosine similarity over provider
  embeddings involves `sqrt` (irrational) and the embedding provider is an
  external collaborator, so the embedding/cosine pair is an abstract
  parameter (`EmbedModel`): `encode` models `EmbeddingManager.encode` for a
  single text and `cos` models `float(np.dot(a,b)/(|a|*|b| + 1e-8))`.
  All verified properties hold for every instantiation.
* `math.log` is likewise irrational; BM25 takes the logarithm as an abstract
  parameter `logf : ℚ → ℚ`.  Theorems that need facts about `ln` assume only
  `0 ≤ logf x` for `1 ≤ x`, which `ln` satisfies.
* `list.sort(key=..., reverse=True)` (CPython, stable) is modelled by a
  stable insertion sort `pySortDesc`.
* CPython `set` iteration order is unspecified; it is modelled as
  first-occurrence order.  No verified property depends on the order of
  equal-score ties except where an explicit distinctness hypothesis is made.
* Python `dict` is modelled by an association list with the CPython
  semantics: insertion keeps the first position of a key and the last value.
* Derived BM25 state (`_tf`, `_df`, `_avgdl`, `_built`) is recomputed from
  the chunk list: every mutation of the chunk list in the source resets
  `_built = False`, so a search never observes stale term statistics.
-/

namespace CommuniverseRag

set_option allowUnsafeReducibility true

attribute [local semireducible] Rat.add Rat.mul Rat.inv Rat.sub Rat.ofScientific

/-! ### Python string primitives -/

/-- Characters stripped by Python `str.strip()` with no arguments. -/
def pyWhitespace : List Char := [' ', '\t', '\n', '\r', '\x0b', '\x0c']

/-- Split a character list at every separator character (groups between
separators are kept, including empty ones, exactly like Python `re.split`
on a single-character pattern).  Structurally recursive so that concrete
instances reduce inside the kernel. -/
def splitChars (p : Char → Bool) : List Char → List (List Char)
  | [] => [[]]
  | c :: cs =>
    if p c then [] :: splitChars p cs
    else
      match splitChars p cs with
      | [] => [[c]]
      | g :: gs => (c :: g) :: gs

/-- Split a string at every character satisfying `p`, keeping empty pieces. -/
def splitStr (p : Char → Bool) (s : String) : List String :=
  (splitChars p s.toList).map String.mk

/-- Python `s.lower()` (ASCII case mapping, which is what every verified
statement exercises). -/
def toLowerStr (s : String) : String := String.mk (s.toList.map Char.toLower)

/-- First `n` characters of a string (Python `s[:n]` for `n ≥ 0`). -/
def takeStr (s : String) (n : Nat) : String := String.mk (s.toList.take n)

/-- Python `s.strip(chars)`: remove leading and trailing characters in `cs`. -/
def pyStripChars (cs : List Char) (s : String) : String :=
  String.mk (((s.toList.dropWhile (cs.contains ·)).reverse.dropWhile (cs.contains ·)).reverse)

/-- Python `s.strip()` (whitespace strip). -/
def pyStrip (s : String) : String := pyStripChars pyWhitespace s

/-- Python `s.split()`: split on whitespace runs, dropping empty pieces. -/
def pySplitWs (s : String) : List String :=
  (splitStr (fun c => pyWhitespace.contains c) s).filter (· ≠ "")

/-- Python `s.splitlines()` restricted to `\n` separators (the only line
separator produced by the provider strings this code consumes). -/
def pySplitLines (s : String) : List String := splitStr (· = '\n') s

/-- Python `\w` word characters.  `re.findall(r"\w+", ...)` in the source is
applied to mixed-script text; ASCII behaviour (letters, digits, underscore)
is modelled exactly, which is what every verified statement exercises. -/
def pyWordChar (c : Char) : Bool := c.isAlphanum || c = '_'

/-- `_InMemoryIndex._tokenize`: `re.findall(r"\w+", text.lower())`,
the maximal runs of word characters of the lower-cased text. -/
def tokenize (text : String) : List String :=
  (splitStr (fun c => !pyWordChar c) (toLowerStr text)).filter (· ≠ "")

/-- `util.text.normalize_ws`: collapse whitespace runs to single spaces and
strip the ends (`re.sub(r"\s+", " ", s).strip()`). -/
def normalize_ws (s : String) : String :=
  match pySplitWs s with
  | [] => ""
  | w :: ws => ws.foldl (fun a b => a ++ " " ++ b) w

/-- `util.text.take_head_para`: normalized head of the text, truncated to
`limit` characters with an ellipsis when longer. -/
def take_head_para (text : String) (limit : Nat) : String :=
  let t := normalize_ws text
  if limit < t.toList.length then takeStr t limit ++ "…" else t

/-! ### Python float parsing (`float(tok)`)

Model of the CPython `float` constructor on a string: optional sign, then
`inf`/`infinity`/`nan` (case-insensitive) or a decimal literal with an
optional fraction and exponent.  Values are exact rationals (no rounding or
overflow); digit-group underscores are not modelled.  Neither difference can
affect the verified claims, which only distinguish "parses to `v`",
"parses to NaN/±inf" and "fails to parse". -/

inductive PyFloat where
  | num (v : ℚ)
  | nan
  | inf (neg : Bool)
  | fail
deriving DecidableEq

/-- Numeric value of a digit run (most significant first). -/
def digitsVal (cs : List Char) : ℕ :=
  cs.foldl (fun a c => a * 10 + (c.toNat - 48)) 0

/-- Parse the sign-stripped, lower-cased body of a float literal;
`neg` records the sign. -/
def pyFloatBody (neg : Bool) (u : List Char) : PyFloat :=
  if u = "inf".toList ∨ u = "infinity".toList then .inf neg
  else if u = "nan".toList then .nan
  else
    let ip := u.takeWhile Char.isDigit
    let r1 := u.drop ip.length
    let fp := match r1 with
      | '.' :: r => r.takeWhile Char.isDigit
      | _ => []
    let r2 := match r1 with
      | '.' :: r => r.drop (r.takeWhile Char.isDigit).length
      | r => r
    if ip = [] ∧ fp = [] then .fail
    else
      let mant : ℚ := (digitsVal ip : ℚ) + (digitsVal fp : ℚ) / ((10 : ℚ) ^ fp.length)
      match r2 with
      | [] => .num (if neg then -mant else mant)
      | 'e' :: r =>
        let (eneg, er) := match r with
          | '-' :: rr => (true, rr)
          | '+' :: rr => (false, rr)
          | rr => (false, rr)
        let ed := er.takeWhile Char.isDigit
        if ed = [] ∨ er.drop ed.length ≠ [] then .fail
        else
          let mag : ℚ := if eneg then mant / (10 : ℚ) ^ digitsVal ed
                         else mant * (10 : ℚ) ^ digitsVal ed
          .num (if neg then -mag else mag)
      | _ => .fail

/-- Python `float(s)`. -/
def pyFloatParse (s : String) : PyFloat :=
  match (toLowerStr (pyStrip s)).toList with
  | '-' :: r => pyFloatBody true r
  | '+' :: r => pyFloatBody false r
  | r => pyFloatBody false r

/-! ### `RAGPlus.faithfulness_check`

The provider call `self.llm.generate_text(...)` is external; the function is
modelled from the point where the provider's raw response string is in hand.
The whole body runs inside `try/except` with `return 0.0` on any exception,
so the model is a total function: the missing-token `IndexError` of
`raw.strip().split()[0]` and the `ValueError` of `float(...)` both land in
the `0.0` branch. -/

def faithfulness_check (raw : String) : ℚ :=
  match pySplitWs (pyStrip raw) with
  | [] => 0
  | tok :: _ =>
    match pyFloatParse tok with
    | .num v => if v < 0 ∨ 1 < v then 0 else v
    | .nan => 0
    | .inf _ => 0
    | .fail => 0

/-- C5: for every provider response string, the faithfulness check returns a
value in `[0,1]`; it parses the first whitespace-delimited token as a float;
any parse failure, NaN, or out-of-range value (including ±infinity) yields
exactly `0.0`, and an in-range parse returns the parsed value.  The function
is total (the source wraps the body in `try/except` returning `0.0`), so it
never raises. -/
theorem faithfulness_check_contract (raw : String) :
    (0 ≤ faithfulness_check raw ∧ faithfulness_check raw ≤ 1) ∧
    (pySplitWs (pyStrip raw) = [] → faithfulness_check raw = 0) ∧
    (∀ tok rest, pySplitWs (pyStrip raw) = tok :: rest →
      ((pyFloatParse tok = .fail ∨ pyFloatParse tok = .nan ∨
        (∃ b, pyFloatParse tok = .inf b)) → faithfulness_check raw = 0) ∧
      (∀ v, pyFloatParse tok = .num v →
        ((v < 0 ∨ 1 < v) → faithfulness_check raw = 0) ∧
        (0 ≤ v → v ≤ 1 → faithfulness_check raw = v))) := by
  cases h : pySplitWs (pyStrip raw) with
  | nil =>
    have hfc : faithfulness_check raw = 0 := by
      simp only [faithfulness_check, h]
    refine ⟨by rw [hfc]; norm_num, fun _ => hfc, ?_⟩
    intro tok' rest' hc
    exact absurd hc (by simp)
  | cons tok rest =>
    have hval : ∀ tok' rest', tok :: rest = tok' :: rest' → tok' = tok := by
      intro tok' rest' hc
      injection hc with h1 _
      exact h1.symm
    cases hp : pyFloatParse tok with
    | num v =>
      have hfc : faithfulness_check raw = if v < 0 ∨ 1 < v then 0 else v := by
        simp only [faithfulness_check, h, hp]
      refine ⟨?_, fun hc => absurd hc (by simp), ?_⟩
      · rw [hfc]
        split_ifs with hv
        · exact ⟨le_rfl, by norm_num⟩
        · push_neg at hv
          exact ⟨hv.1, hv.2⟩
      intro tok' rest' hc
      have ht := hval tok' rest' hc
      subst ht
      constructor
      · rintro (hf | hf | ⟨b, hf⟩) <;> rw [hp] at hf <;> cases hf
      · intro w hw
        rw [hp] at hw
        injection hw with hw
        subst hw
        constructor
        · intro hlt
          rw [hfc, if_pos hlt]
        · intro h0 h1
          rw [hfc, if_neg]
          push_neg
          exact ⟨h0, h1⟩
    | nan =>
      have hfc : faithfulness_check raw = 0 := by
        simp only [faithfulness_check, h, hp]
      refine ⟨by rw [hfc]; norm_num, fun hc => absurd hc (by simp), ?_⟩
      intro tok' rest' hc
      have ht := hval tok' rest' hc
      subst ht
      exact ⟨fun _ => hfc, fun w hw => by rw [hp] at hw; cases hw⟩
    | inf b =>
      have hfc : faithfulness_check raw = 0 := by
        simp only [faithfulness_check, h, hp]
      refine ⟨by rw [hfc]; norm_num, fun hc => absurd hc (by simp), ?_⟩
      intro tok' rest' hc
      have ht := hval tok' rest' hc
      subst ht
      exact ⟨fun _ => hfc, fun w hw => by rw [hp] at hw; cases hw⟩
    | fail =>
      have hfc : faithfulness_check raw = 0 := by
        simp only [faithfulness_check, h, hp]
      refine ⟨by rw [hfc]; norm_num, fun hc => absurd hc (by simp), ?_⟩
      intro tok' rest' hc
      have ht := hval tok' rest' hc
      subst ht
      exact ⟨fun _ => hfc, fun w hw => by rw [hp] at hw; cases hw⟩

/-- Witness for C5: the contract applied to the non-numeric provider
response `"banana"` (which must yield exactly `0`) and to the numeric
response `"0.75 ok"` (which must yield `3/4`). -/
theorem faithfulness_check_contract_witness :
    faithfulness_check "banana" = 0 ∧ faithfulness_check "0.75 ok" = 3/4 :=
  ⟨(((faithfulness_check_contract "banana").2.2 "banana" [] (by decide)).1)
      (Or.inl (by decide)),
   ((((faithfulness_check_contract "0.75 ok").2.2 "0.75" ["ok"] (by decide)).2
      (3/4) (by decide)).2 (by norm_num) (by norm_num))⟩

/-! ### `RAGPlus.rewrite_queries`

The provider output `out` (`self.llm.generate_text(...)`) is external, so the
function is modelled from the point where that string is in hand. -/

/-- Characters stripped from each provider line: `q.strip("-• \n")`. -/
def rewriteStripSet : List Char := ['-', '•', ' ', '\n']

/-- Case-insensitive deduplication loop of `rewrite_queries`: each entry is
capped to 128 characters; an entry whose lower-case form was already seen is
skipped. -/
def dedupCaseGo (seen : List String) : List String → List String
  | [] => []
  | q :: rest =>
    let q2 := takeStr q 128
    if seen.contains (toLowerStr q2) then dedupCaseGo seen rest
    else q2 :: dedupCaseGo (toLowerStr q2 :: seen) rest

/-- The deduplicated candidate pool of `rewrite_queries`, before truncation
to `n`: provider lines are kept when non-blank and stripped of `"-• \n"`;
the stripped question is appended when not already present verbatim; then
the case-insensitive 128-character-capped deduplication runs. -/
def rewrite_pool (out question : String) : List String :=
  let qs := ((pySplitLines out).filter (fun q => pyStrip q ≠ "")).map
    (pyStripChars rewriteStripSet)
  let qs' := if qs.contains (pyStrip question) then qs else qs ++ [pyStrip question]
  dedupCaseGo [] qs'

/-- `RAGPlus.rewrite_queries`: the deduplicated pool truncated to `n`. -/
def rewrite_queries (out question : String) (n : Nat) : List String :=
  (rewrite_pool out question).take n

/-- Every output of the dedup loop is some input capped to 128 characters. -/
theorem dedupCaseGo_shape (seen : List String) (qs : List String) :
    ∀ s ∈ dedupCaseGo seen qs, ∃ q, s = takeStr q 128 := by
  induction qs generalizing seen with
  | nil => intro s hs; cases hs
  | cons q rest ih =>
    intro s hs
    simp only [dedupCaseGo] at hs
    by_cases h : seen.contains (toLowerStr (takeStr q 128))
    · rw [if_pos h] at hs
      exact ih _ s hs
    · rw [if_neg h] at hs
      rcases List.mem_cons.1 hs with hs | hs
      · exact ⟨q, hs⟩
      · exact ih _ s hs

/-- Lower-case forms of the dedup loop's output are distinct and avoid the
`seen` accumulator. -/
theorem dedupCaseGo_nodup (seen : List String) (qs : List String) :
    ((dedupCaseGo seen qs).map toLowerStr).Nodup ∧
    (∀ s ∈ dedupCaseGo seen qs, toLowerStr s ∉ seen) := by
  induction qs generalizing seen with
  | nil => exact ⟨List.nodup_nil, by intro s hs; cases hs⟩
  | cons q rest ih =>
    simp only [dedupCaseGo]
    by_cases h : seen.contains (toLowerStr (takeStr q 128))
    · rw [if_pos h]
      exact ih seen
    · rw [if_neg h]
      obtain ⟨ihn, ihs⟩ := ih (toLowerStr (takeStr q 128) :: seen)
      constructor
      · refine List.nodup_cons.2 ⟨?_, ihn⟩
        intro hmem
        obtain ⟨s, hs, hls⟩ := List.mem_map.1 hmem
        exact (ihs s hs) (by rw [hls]; exact List.mem_cons_self _ _)
      · intro s hs
        rcases List.mem_cons.1 hs with hs | hs
        · subst hs
          intro hcon
          exact h (List.elem_eq_true_of_mem hcon)
        · intro hcon
          exact (ihs s hs) (List.mem_cons_of_mem _ hcon)

/-- Every input of the dedup loop is represented in its output up to
case, unless its lower-case capped form was already in `seen`. -/
theorem dedupCaseGo_covers (seen : List String) (qs : List String) :
    ∀ q ∈ qs, toLowerStr (takeStr q 128) ∈ seen ∨
      ∃ s ∈ dedupCaseGo seen qs, toLowerStr s = toLowerStr (takeStr q 128) := by
  induction qs generalizing seen with
  | nil => intro q hq; cases hq
  | cons x rest ih =>
    intro q hq
    simp only [dedupCaseGo]
    by_cases h : seen.contains (toLowerStr (takeStr x 128))
    · rw [if_pos h]
      rcases List.mem_cons.1 hq with hq | hq
      · subst hq
        exact Or.inl (List.mem_of_elem_eq_true h)
      · exact ih seen q hq
    · rw [if_neg h]
      rcases List.mem_cons.1 hq with hq | hq
      · subst hq
        exact Or.inr ⟨takeStr q 128, List.mem_cons_self _ _, rfl⟩
      · rcases ih (toLowerStr (takeStr x 128) :: seen) q hq with hmem | ⟨s, hs, hls⟩
        · rcases List.mem_cons.1 hmem with hmem | hmem
          · exact Or.inr ⟨takeStr x 128, List.mem_cons_self _ _, hmem.symm⟩
          · exact Or.inl hmem
        · exact Or.inr ⟨s, List.mem_cons_of_mem _ hs, hls⟩

/-- C1 (amended): the rewritten-query list has at most `n` entries, each
entry is capped at 128 characters, and entries are pairwise distinct
case-insensitively.  The stripped original question always enters the
deduplicated candidate pool (up to case and the 128-character cap), and it
appears in the final list whenever that pool has at most `n` entries; the
unconditional "contains the original question verbatim" of the claim fails
because the question is appended at the end of the pool and truncation to
`n` can drop it (see `rewrite_queries_drops_question`). -/
theorem rewrite_queries_contract (out question : String) (n : Nat) :
    (rewrite_queries out question n).length ≤ n ∧
    (∀ s ∈ rewrite_queries out question n, s.toList.length ≤ 128) ∧
    ((rewrite_queries out question n).map toLowerStr).Nodup ∧
    (∃ s ∈ rewrite_pool out question,
        toLowerStr s = toLowerStr (takeStr (pyStrip question) 128)) ∧
    ((rewrite_pool out question).length ≤ n →
      ∃ s ∈ rewrite_queries out question n,
        toLowerStr s = toLowerStr (takeStr (pyStrip question) 128)) := by
  have hq : rewrite_queries out question n = (rewrite_pool out question).take n := rfl
  have hcover : ∃ s ∈ rewrite_pool out question,
      toLowerStr s = toLowerStr (takeStr (pyStrip question) 128) := by
    have hpool : rewrite_pool out question =
        dedupCaseGo []
          (let qs := ((pySplitLines out).filter (fun q => pyStrip q ≠ "")).map
            (pyStripChars rewriteStripSet)
           if qs.contains (pyStrip question) then qs else qs ++ [pyStrip question]) := rfl
    set qs := ((pySplitLines out).filter (fun q => pyStrip q ≠ "")).map
      (pyStripChars rewriteStripSet) with hqs
    have hmem : pyStrip question ∈
        (if qs.contains (pyStrip question) then qs else qs ++ [pyStrip question]) := by
      by_cases h : qs.contains (pyStrip question)
      · rw [if_pos h]
        exact List.mem_of_elem_eq_true h
      · rw [if_neg h]
        exact List.mem_append_right _ (List.mem_singleton.2 rfl)
    rcases dedupCaseGo_covers []
        (if qs.contains (pyStrip question) then qs else qs ++ [pyStrip question])
        (pyStrip question) hmem with hfalse | hex
    · cases hfalse
    · rw [hpool]
      exact hex
  refine ⟨?_, ?_, ?_, hcover, ?_⟩
  · rw [hq, List.length_take]
    exact Nat.min_le_left _ _
  · intro s hs
    rw [hq] at hs
    obtain ⟨q, hsq⟩ := dedupCaseGo_shape _ _ s (List.mem_of_mem_take hs)
    subst hsq
    simp [takeStr]
  · rw [hq]
    exact ((List.take_sublist n _).map toLowerStr).nodup (dedupCaseGo_nodup [] _).1
  · intro hlen
    rw [hq, List.take_of_length_le hlen]
    exact hcover

/-- C1 counterexample: with provider output `"a\nb\nc"` and question `"d"`,
`rewrite_queries` (default `n = 3`) appends the question behind the three
provider lines and then truncates to 3, so the returned list does not
contain the original question. -/
theorem rewrite_queries_drops_question :
    ¬ ("d" ∈ rewrite_queries "a\nb\nc" "d" 3) := by decide

/-- Witness for C1: on provider output `"a\nb"` and question `"Hello"` the
pool has 3 ≤ 3 entries, so the hypothesis of the final clause of
`rewrite_queries_contract` is discharged and the question is returned. -/
theorem rewrite_queries_contract_witness :
    ∃ s ∈ rewrite_queries "a\nb" "Hello" 3,
      toLowerStr s = toLowerStr (takeStr (pyStrip "Hello") 128) :=
  (rewrite_queries_contract "a\nb" "Hello" 3).2.2.2.2 (by decide)

/-! ### Data model of `core/rag.py`

`Meta` models the chunk metadata dict written by `DocumentProcessor`
(`namespace`, `tags`, `order`, `disabled`, and arbitrary further source
fields); `Chunk` models `_Chunk`; `DocInfo` models a `self.docs` value;
`Store` models the mutable state of `_InMemoryIndex` (the chunk list and the
doc table; the derived BM25 fields are recomputed, see the header). -/

structure Meta where
  nsp : Option String
  tags : List String
  order : Nat
  disabled : Bool
  extra : List (String × String)
deriving DecidableEq

instance : Inhabited Meta := ⟨⟨none, [], 0, false, []⟩⟩

structure Chunk (V : Type) where
  id : String
  text : String
  meta : Meta
  vec : Option V
deriving DecidableEq

structure DocInfo where
  doc_id : String
  nsp : Option String
  tags : List String
  count : Nat
  created_at : ℚ
deriving DecidableEq

structure Store (V : Type) where
  chunks : List (Chunk V)
  docs : List (String × DocInfo)
deriving DecidableEq

/-- The two abstract provider-dependent ingredients of the vector index:
`encode` models `EmbeddingManager.encode` on a single text and `cos` models
the float cosine `np.dot(a,b)/(np.linalg.norm(a)*np.linalg.norm(b)+1e-8)`
(irrational over ℚ, hence abstract). -/
structure EmbedModel (V : Type) where
  encode : String → V
  cos : V → V → ℚ

/-- The vector a chunk is scored with: `_ensure_vectors` encodes exactly the
chunks whose cached `vec` is `None`, so the scored vector is the cache when
present and `encode(text)` otherwise. -/
def chunkVec {V : Type} (e : EmbedModel V) (c : Chunk V) : V :=
  c.vec.getD (e.encode c.text)

/-- `_InMemoryIndex._match_filters`.  Python truthiness: an empty namespace
string or an empty tag list disables the corresponding filter. -/
def match_filters {V : Type} (c : Chunk V) (nsp : Option String)
    (tagsAny tagsAll : Option (List String)) : Bool :=
  !c.meta.disabled &&
  (match nsp with
   | none => true
   | some ns => ns = "" || c.meta.nsp = some ns) &&
  (match tagsAny with
   | none => true
   | some l => l.isEmpty || l.any (fun t => c.meta.tags.contains t)) &&
  (match tagsAll with
   | none => true
   | some l => l.isEmpty || l.all (fun t => c.meta.tags.contains t))

/-! ### Stable descending sort

CPython `list.sort(key=..., reverse=True)` is a stable sort; on pairs it is
insertion sort with the relation "my key is at least yours". -/

/-- Stable descending sort by a rational key (model of
`lst.sort(key=..., reverse=True)`). -/
def pySortDesc {α : Type} (key : α → ℚ) (l : List α) : List α :=
  l.insertionSort (fun a b => key b ≤ key a)

/-! ### Semantic search -/

/-- The filtered `(index, chunk)` mask of a search. -/
def searchMask {V : Type} (s : Store V) (nsp : Option String)
    (tagsAny tagsAll : Option (List String)) : List (Nat × Chunk V) :=
  s.chunks.enum.filter (fun p => match_filters p.2 nsp tagsAny tagsAll)

/-- The unsorted cosine scores of `semantic_search` over the mask. -/
def semSims {V : Type} (e : EmbedModel V) (s : Store V) (q : String)
    (nsp : Option String) (tagsAny tagsAll : Option (List String)) :
    List (Nat × ℚ) :=
  (searchMask s nsp tagsAny tagsAll).map
    (fun p => (p.1, e.cos (e.encode q) (chunkVec e p.2)))

/-- `_InMemoryIndex.semantic_search`. -/
def semantic_search {V : Type} (e : EmbedModel V) (s : Store V) (q : String)
    (top_k : Nat) (nsp : Option String)
    (tagsAny tagsAll : Option (List String)) : List (Nat × ℚ) :=
  if s.chunks.isEmpty then []
  else if (searchMask s nsp tagsAny tagsAll).isEmpty then []
  else (pySortDesc (fun p => p.2) (semSims e s q nsp tagsAny tagsAll)).take top_k

/-! ### BM25 -/

/-- Term frequency `freq.get(t, 0)` of a tokenized text. -/
def termFreq (toks : List String) (t : String) : Nat :=
  (toks.filter (· = t)).length

/-- Document frequency `self._df.get(t, 0)`: the number of chunks whose
token list contains `t` (built over all chunks, disabled included). -/
def docFreq {V : Type} (s : Store V) (t : String) : Nat :=
  (s.chunks.filter (fun c => (tokenize c.text).contains t)).length

/-- Corpus average token length `self._avgdl` (0 when there are no chunks). -/
def avgdl {V : Type} (s : Store V) : ℚ :=
  if s.chunks.isEmpty then 0
  else ((s.chunks.map (fun c => ((tokenize c.text).length : ℚ))).sum) /
    (s.chunks.length : ℚ)

/-- One query token's contribution to a chunk's BM25 score (0 when the term
is absent, matching the `continue`). -/
def bm25_term {V : Type} (logf : ℚ → ℚ) (s : Store V) (dl : ℚ)
    (toks : List String) (k1 b : ℚ) (t : String) : ℚ :=
  let f : ℚ := (termFreq toks t : ℚ)
  if f = 0 then 0
  else
    let nqi : ℚ := (docFreq s t : ℚ)
    let idf := logf (1 + (((s.chunks.length : ℚ) - nqi + 1/2) / (nqi + 1/2)))
    idf * (f * (k1 + 1)) / (f + k1 * (1 - b + b * (dl / max 1 (avgdl s))))

/-- BM25 score of one chunk against the query tokens
(`dl = sum(tf.values()) or 1`). -/
def bm25_chunk_score {V : Type} (logf : ℚ → ℚ) (s : Store V) (c : Chunk V)
    (qtoks : List String) (k1 b : ℚ) : ℚ :=
  let toks := tokenize c.text
  let dl : ℚ := if toks.length = 0 then 1 else (toks.length : ℚ)
  (qtoks.map (bm25_term logf s dl toks k1 b)).sum

/-- The positively-scored `(index, score)` list of `bm25_search` before
sorting. -/
def bm25Scores {V : Type} (logf : ℚ → ℚ) (s : Store V) (q : String)
    (nsp : Option String) (tagsAny tagsAll : Option (List String))
    (k1 b : ℚ) : List (Nat × ℚ) :=
  ((searchMask s nsp tagsAny tagsAll).map
    (fun p => (p.1, bm25_chunk_score logf s p.2 (tokenize q) k1 b))).filter
    (fun x => 0 < x.2)

/-- `_InMemoryIndex.bm25_search` (defaults `k1 = 1.5`, `b = 0.75` are passed
explicitly by the callers below). -/
def bm25_search {V : Type} (logf : ℚ → ℚ) (s : Store V) (q : String)
    (top_k : Nat) (nsp : Option String)
    (tagsAny tagsAll : Option (List String)) (k1 b : ℚ) : List (Nat × ℚ) :=
  if s.chunks.isEmpty then []
  else if (searchMask s nsp tagsAny tagsAll).isEmpty then []
  else (pySortDesc (fun p => p.2)
    (bm25Scores logf s q nsp tagsAny tagsAll k1 b)).take top_k

/-! ### Hybrid search -/

/-- Largest element of a rational list (0 on the empty list, which the
callers never hit). -/
def listMax : List ℚ → ℚ
  | [] => 0
  | x :: xs => xs.foldl max x

/-- Smallest element of a rational list (0 on the empty list). -/
def listMin : List ℚ → ℚ
  | [] => 0
  | x :: xs => xs.foldl min x

/-- The `norm` closure of `hybrid_search` combined with the `.get(i, 0.0)`
lookup: min-max normalization of a ranked list, `0` for an absent id, with
`rng = (mx - mn) or 1.0` (constant lists normalize to 0). -/
def normScore (lst : List (Nat × ℚ)) (i : Nat) : ℚ :=
  match lst.reverse.find? (fun p => p.1 = i) with
  | none => 0
  | some p =>
    let mx := listMax (lst.map (fun x => x.2))
    let mn := listMin (lst.map (fun x => x.2))
    let rng := if mx - mn = 0 then 1 else mx - mn
    (p.2 - mn) / rng

/-- First-occurrence deduplication (model of iterating a CPython `set`;
see the header note on iteration order). -/
def dedupFirst : List Nat → List Nat
  | [] => []
  | x :: xs => x :: (dedupFirst xs).filter (fun y => y ≠ x)

/-- The id pool `set(s_sem.keys()) | set(s_bm.keys())` of `hybrid_search`. -/
def keyUnion (a b : List (Nat × ℚ)) : List Nat :=
  dedupFirst (a.map (fun p => p.1) ++ b.map (fun p => p.1))

/-- `_InMemoryIndex.hybrid_search`: both rankers are consulted with
`top_k = max(top_k, 20)`, each list is min-max normalized, the union of ids
is scored with `alpha * sem + (1 - alpha) * bm` (0 for an absent id), sorted
descending and truncated. -/
def hybrid_search {V : Type} (e : EmbedModel V) (logf : ℚ → ℚ) (s : Store V)
    (q : String) (top_k : Nat) (alpha : ℚ) (nsp : Option String)
    (tagsAny tagsAll : Option (List String)) : List (Nat × ℚ) :=
  let sem := semantic_search e s q (max top_k 20) nsp tagsAny tagsAll
  let bm := bm25_search logf s q (max top_k 20) nsp tagsAny tagsAll (3/2) (3/4)
  let fused := (keyUnion sem bm).map
    (fun i => (i, alpha * normScore sem i + (1 - alpha) * normScore bm i))
  (pySortDesc (fun p => p.2) fused).take top_k

/-! ### Public engine -/

inductive Mode where
  | semantic
  | bm25
  | hybrid
deriving DecidableEq

structure RetrievalQuery where
  text : String
  top_k : Int
  mode : Mode
  alpha : ℚ
  nsp : Option String
  tags_any : Option (List String)
  tags_all : Option (List String)
deriving DecidableEq

structure RetrievalHit where
  id : String
  content : String
  score : ℚ
  metadata : Meta
deriving DecidableEq

/-- `ChineseRAGEngine.search`: non-positive `top_k` short-circuits to an
empty hit list; otherwise the mode dispatches to one of the three index
searches and the `(index, score)` pairs are resolved against the chunk
list.  The index is always in range; the `Inhabited` default is never
used. -/
def search {V : Type} (e : EmbedModel V) (logf : ℚ → ℚ) (s : Store V)
    (q : RetrievalQuery) : List RetrievalHit :=
  if q.top_k ≤ 0 then []
  else
    let pairs : List (Nat × ℚ) :=
      match q.mode with
      | .semantic => semantic_search e s q.text q.top_k.toNat q.nsp q.tags_any q.tags_all
      | .bm25 => bm25_search logf s q.text q.top_k.toNat q.nsp q.tags_any q.tags_all (3/2) (3/4)
      | .hybrid => hybrid_search e logf s q.text q.top_k.toNat q.alpha q.nsp q.tags_any q.tags_all
    pairs.map (fun p =>
      match s.chunks.get? p.1 with
      | some c => { id := c.id, content := c.text, score := p.2, metadata := c.meta }
      | none => { id := "", content := "", score := p.2, metadata := default })

/-! ### Admin operations -/

/-- Set the `disabled` flag of the first chunk with the given id
(`_InMemoryIndex.set_chunk_disabled` mutates in place and returns on the
first match). -/
def set_disabled_first {V : Type} (chunk_id : String) (disabled : Bool) :
    List (Chunk V) → Option (List (Chunk V))
  | [] => none
  | c :: cs =>
    if c.id = chunk_id then
      some ({ c with meta := { c.meta with disabled := disabled } } :: cs)
    else
      match set_disabled_first chunk_id disabled cs with
      | some cs' => some (c :: cs')
      | none => none

/-- `_InMemoryIndex.set_chunk_disabled`: returns the `found` flag and the
updated store. -/
def set_chunk_disabled {V : Type} (s : Store V) (chunk_id : String)
    (disabled : Bool) : Bool × Store V :=
  match set_disabled_first chunk_id disabled s.chunks with
  | some cs' => (true, { s with chunks := cs' })
  | none => (false, s)

/-- One exported chunk record `{"id": ..., "text": ..., "meta": ...}`. -/
structure ExportChunk where
  id : String
  text : String
  meta : Meta
deriving DecidableEq

/-- The JSON snapshot produced by `_InMemoryIndex.export_json`. -/
structure Snapshot where
  docs : List DocInfo
  chunks : List ExportChunk
  dim : Nat
  ts : ℚ
  version : Nat
deriving DecidableEq

/-- `_InMemoryIndex.export_json` (`dim` and `ts` are environment inputs). -/
def export_json {V : Type} (s : Store V) (dim : Nat) (ts : ℚ) : Snapshot :=
  { docs := s.docs.map (fun p => p.2)
    chunks := s.chunks.map (fun c => { id := c.id, text := c.text, meta := c.meta })
    dim := dim
    ts := ts
    version := 1 }

/-- CPython `dict` insertion: first position of a key, last value. -/
def pyDictInsert {α : Type} (m : List (String × α)) (k : String) (v : α) :
    List (String × α) :=
  if m.any (fun p => p.1 = k) then
    m.map (fun p => if p.1 = k then (k, v) else p)
  else m ++ [(k, v)]

/-- CPython `dict` built from a key/value sequence (comprehension
semantics). -/
def pyDict {α : Type} (l : List (String × α)) : List (String × α) :=
  l.foldl (fun m p => pyDictInsert m p.1 p.2) []

/-- `_InMemoryIndex.import_json`: replaces the store contents; the docs
table is rebuilt keyed by `doc_id`, chunks are rebuilt without vectors.
(Exported snapshots always carry the `doc_id`/`id`/`text` keys the source
filters on, so the filters are identities here.) -/
def import_json {V : Type} (payload : Snapshot) : Store V :=
  { docs := pyDict (payload.docs.map (fun d => (d.doc_id, d)))
    chunks := payload.chunks.map
      (fun c => { id := c.id, text := c.text, meta := c.meta, vec := none }) }

/-- Error taxonomy of the specification (§7). -/
inductive ValidationError where
  | emptyQuery
  | nonPositiveTopK
  | unknownMode
deriving DecidableEq

/-- Modelled from the spec: "ValidationError — empty query text,
non-positive `top_k`, unknown mode: rejected before any index access."  The
specified search surfaces a `ValidationError` for a non-positive `top_k`
instead of a successful empty result.  (Only the `top_k` clause is needed
for claim C2.) -/
def search_spec_C2 {V : Type} (e : EmbedModel V) (logf : ℚ → ℚ) (s : Store V)
    (q : RetrievalQuery) : Except ValidationError (List RetrievalHit) :=
  if q.top_k ≤ 0 then .error .nonPositiveTopK
  else .ok (search e logf s q)

/-! ### Concrete fixtures used by witnesses and counterexamples -/

/-- Trivial embedding provider instance: every text encodes to `()` and
every cosine is 1 (legitimate, since the provider is abstract). -/
def unitEmbed : EmbedModel Unit := { encode := fun _ => (), cos := fun _ _ => 1 }

/-- A concrete stand-in for `math.log` satisfying `0 ≤ linLog x` for
`1 ≤ x`, used to evaluate BM25 at concrete inputs. -/
def linLog : ℚ → ℚ := fun x => x - 1

/-- Two-chunk fixture corpus. -/
def fruitStore : Store Unit :=
  { chunks := [
      { id := "d:0", text := "apple", meta := default, vec := none },
      { id := "d:1", text := "banana", meta := default, vec := none }],
    docs := [("d", { doc_id := "d", nsp := none, tags := [], count := 2, created_at := 0 })] }

/-- A hybrid query over the fixture corpus with non-positive `top_k`. -/
def zeroTopKQuery : RetrievalQuery :=
  { text := "apple", top_k := 0, mode := .hybrid, alpha := 7/10,
    nsp := none, tags_any := none, tags_all := none }

/-! ### C2: non-positive `top_k` -/

/-- C2 (amended): for every store and every query with non-positive `top_k`,
the engine's `search` returns the empty hit list immediately — the result is
the same for every store, provider and logarithm, so no semantic, lexical or
hybrid index computation can influence it — but no error is raised or
surfaced: the caller receives an ordinary empty result. -/
theorem search_nonpositive_top_k {V : Type} (e : EmbedModel V) (logf : ℚ → ℚ)
    (s : Store V) (q : RetrievalQuery) (h : q.top_k ≤ 0) :
    search e logf s q = [] := by
  simp [search, h]

/-- Witness for C2 (amended): the guard applied to the concrete fixture. -/
theorem search_nonpositive_top_k_witness :
    search unitEmbed linLog fruitStore zeroTopKQuery = [] :=
  search_nonpositive_top_k unitEmbed linLog fruitStore zeroTopKQuery (by decide)

/-- C2 counterexample: on the non-empty fixture corpus with `top_k = 0` the
engine returns the plain empty success `[]` — by its return type it cannot
surface an error, and the guard precedes every index access — whereas the
spec-modelled search rejects the same request with a `ValidationError`.  The
"rejected before any index access" half of the claim holds; the "error is
surfaced to the caller" half does not. -/
theorem search_top_k_no_error_surfaced :
    search unitEmbed linLog fruitStore zeroTopKQuery = [] ∧
    search_spec_C2 unitEmbed linLog fruitStore zeroTopKQuery =
      .error .nonPositiveTopK ∧
    fruitStore.chunks ≠ [] := by
  refine ⟨by decide, rfl, by decide⟩

/-! ### C10: frame effect of `set_chunk_disabled` -/

/-- Effect of `set_disabled_first` on a list with distinct ids. -/
theorem set_disabled_first_none {V : Type} (cid : String) (b : Bool) :
    ∀ (l : List (Chunk V)), set_disabled_first cid b l = none ↔
      ∀ c ∈ l, c.id ≠ cid := by
  intro l
  induction l with
  | nil => simp [set_disabled_first]
  | cons x xs ih =>
    simp only [set_disabled_first]
    by_cases hx : x.id = cid
    · rw [if_pos hx]
      constructor
      · intro hcon
        cases hcon
      · intro hall
        exact absurd hx (hall x (List.mem_cons_self _ _))
    · rw [if_neg hx]
      cases hrec : set_disabled_first cid b xs with
      | some cs' =>
        constructor
        · intro hcon
          cases hcon
        · intro hall
          exfalso
          have hnone := ih.2 (fun c hc => hall c (List.mem_cons_of_mem _ hc))
          rw [hrec] at hnone
          cases hnone
      | none =>
        constructor
        · intro _ c hc
          rcases List.mem_cons.1 hc with hc | hc
          · subst hc; exact hx
          · exact (ih.1 hrec) c hc
        · intro _
          rfl

/-- Pointwise description of a successful `set_disabled_first` on a list
with distinct ids. -/
theorem set_disabled_first_some {V : Type} (cid : String) (b : Bool) :
    ∀ (l l' : List (Chunk V)), (l.map (fun c => c.id)).Nodup →
      set_disabled_first cid b l = some l' →
      l'.length = l.length ∧
      ∀ i c c', l.get? i = some c → l'.get? i = some c' →
        (c.id ≠ cid → c' = c) ∧
        (c.id = cid → c' = { c with meta := { c.meta with disabled := b } }) := by
  intro l
  induction l with
  | nil => intro l' _ h; cases h
  | cons x xs ih =>
    intro l' hnd h
    simp only [set_disabled_first] at h
    rw [List.map_cons, List.nodup_cons] at hnd
    by_cases hx : x.id = cid
    · rw [if_pos hx] at h
      injection h with h
      subst h
      refine ⟨by simp, ?_⟩
      intro i c c' hc hc'
      cases i with
      | zero =>
        simp only [List.get?] at hc hc'
        injection hc with hc
        injection hc' with hc'
        subst hc; subst hc'
        exact ⟨fun hne => absurd hx hne, fun _ => rfl⟩
      | succ j =>
        simp only [List.get?] at hc hc'
        rw [hc] at hc'
        injection hc' with hc'
        subst hc'
        refine ⟨fun _ => rfl, fun hcId => ?_⟩
        exfalso
        have hmm : c.id ∈ xs.map (fun c => c.id) :=
          List.mem_map.2 ⟨c, List.get?_mem hc, rfl⟩
        rw [hcId, ← hx] at hmm
        exact hnd.1 hmm
    · rw [if_neg hx] at h
      cases hrec : set_disabled_first cid b xs with
      | none => rw [hrec] at h; cases h
      | some cs' =>
        rw [hrec] at h
        injection h with h
        subst h
        obtain ⟨hlen, hpt⟩ := ih cs' hnd.2 hrec
        refine ⟨by simp [hlen], ?_⟩
        intro i c c' hc hc'
        cases i with
        | zero =>
          simp only [List.get?] at hc hc'
          injection hc with hc
          injection hc' with hc'
          subst hc; subst hc'
          exact ⟨fun _ => rfl, fun hcId => absurd hcId hx⟩
        | succ j =>
          simp only [List.get?] at hc hc'
          exact hpt j c c' hc hc'

/-- C10: `set_chunk_disabled` mutates at most the `disabled` flag of the
chunk whose id matches: the doc table, the number of chunks, every
non-matching chunk, and the id, text, vector and all other metadata fields
of the matching chunk are unchanged; when no chunk matches, the whole store
is returned unchanged (and `found = false` exactly in that case).  Ids are
assumed distinct, the invariant the `doc_id:index` naming establishes. -/
theorem set_chunk_disabled_frame {V : Type} (s : Store V) (cid : String)
    (b : Bool) (hids : (s.chunks.map (fun c => c.id)).Nodup) :
    ((set_chunk_disabled s cid b).2.docs = s.docs) ∧
    ((set_chunk_disabled s cid b).2.chunks.length = s.chunks.length) ∧
    ((set_chunk_disabled s cid b).1 = false ↔ ∀ c ∈ s.chunks, c.id ≠ cid) ∧
    ((set_chunk_disabled s cid b).1 = false → (set_chunk_disabled s cid b).2 = s) ∧
    (∀ i c c', s.chunks.get? i = some c →
      (set_chunk_disabled s cid b).2.chunks.get? i = some c' →
      (c.id ≠ cid → c' = c) ∧
      (c.id = cid → c'.id = c.id ∧ c'.text = c.text ∧ c'.vec = c.vec ∧
        c'.meta.nsp = c.meta.nsp ∧ c'.meta.tags = c.meta.tags ∧
        c'.meta.order = c.meta.order ∧ c'.meta.extra = c.meta.extra ∧
        c'.meta.disabled = b)) := by
  unfold set_chunk_disabled
  cases h : set_disabled_first cid b s.chunks with
  | none =>
    refine ⟨rfl, rfl, ?_, fun _ => rfl, ?_⟩
    · exact ⟨fun _ => (set_disabled_first_none cid b s.chunks).1 h, fun _ => rfl⟩
    · intro i c c' hc hc'
      simp only at hc'
      rw [hc] at hc'
      injection hc' with hc'
      subst hc'
      refine ⟨fun _ => rfl, fun hcId => ?_⟩
      exact absurd hcId (((set_disabled_first_none cid b s.chunks).1 h) c (List.get?_mem hc))
  | some cs' =>
    obtain ⟨hlen, hpt⟩ := set_disabled_first_some cid b s.chunks cs' hids h
    refine ⟨rfl, hlen, ?_, ?_, ?_⟩
    · constructor
      · intro hcon
        simp at hcon
      · intro hall
        exfalso
        have hnone := (set_disabled_first_none cid b s.chunks).2 hall
        rw [h] at hnone
        cases hnone
    · intro hfalse
      simp at hfalse
    · intro i c c' hc hc'
      simp only at hc'
      obtain ⟨h1, h2⟩ := hpt i c c' hc hc'
      refine ⟨h1, fun hcId => ?_⟩
      rw [h2 hcId]
      exact ⟨rfl, rfl, rfl, rfl, rfl, rfl, rfl, rfl⟩

/-- Witness for C10: the frame theorem applied to the fixture store,
disabling chunk `d:1`, extracting the concrete conclusion for index 1. -/
theorem set_chunk_disabled_frame_witness :
    ((set_chunk_disabled fruitStore "d:1" true).2.docs = fruitStore.docs) ∧
    ((set_chunk_disabled fruitStore "d:1" true).2.chunks.get? 1).map
      (fun c => c.meta.disabled) = some true := by
  have h := set_chunk_disabled_frame fruitStore "d:1" true (by decide)
  refine ⟨h.1, ?_⟩
  have h5 := h.2.2.2.2 1
    { id := "d:1", text := "banana", meta := default, vec := none }
  cases hc' : (set_chunk_disabled fruitStore "d:1" true).2.chunks.get? 1 with
  | none =>
    exfalso
    have hl := h.2.1
    have : (set_chunk_disabled fruitStore "d:1" true).2.chunks.length = 2 := by
      rw [hl]; decide
    rw [List.get?_eq_none] at hc'
    omega
  | some c' =>
    have hdis := (h5 c' (by decide) hc').2 (by decide)
    show some c'.meta.disabled = some true
    rw [hdis.2.2.2.2.2.2.2]

/-! ### C6: export/import round-trip -/

/-- Inserting an unseen key appends it. -/
theorem pyDictInsert_notmem {α : Type} (m : List (String × α)) (k : String)
    (v : α) (h : ∀ p ∈ m, p.1 ≠ k) : pyDictInsert m k v = m ++ [(k, v)] := by
  unfold pyDictInsert
  rw [if_neg]
  intro hany
  obtain ⟨p, hp, hpk⟩ := List.any_eq_true.1 hany
  exact (h p hp) (of_decide_eq_true hpk)

/-- Folding `pyDictInsert` over a sequence with distinct keys, none of which
occur in the accumulator, appends the sequence. -/
theorem pyDict_foldl_acc {α : Type} :
    ∀ (l m : List (String × α)),
      (∀ p ∈ m, ∀ q ∈ l, p.1 ≠ q.1) → (l.map (fun p => p.1)).Nodup →
      l.foldl (fun m p => pyDictInsert m p.1 p.2) m = m ++ l := by
  intro l
  induction l with
  | nil => intro m _ _; simp
  | cons x xs ih =>
    intro m hdisj hnd
    rw [List.map_cons, List.nodup_cons] at hnd
    simp only [List.foldl_cons]
    rw [pyDictInsert_notmem m x.1 x.2 (fun p hp => hdisj p hp x (List.mem_cons_self _ _))]
    have hstep : m ++ [(x.1, x.2)] = m ++ [x] := rfl
    rw [hstep, ih (m ++ [x]) ?_ hnd.2]
    · simp
    · intro p hp q hq
      rcases List.mem_append.1 hp with hp | hp
      · exact hdisj p hp q (List.mem_cons_of_mem _ hq)
      · rw [List.mem_singleton.1 hp]
        intro heq
        exact hnd.1 (heq ▸ List.mem_map.2 ⟨q, hq, rfl⟩)

/-- `pyDict` is the identity on association lists with distinct keys. -/
theorem pyDict_eq_self {α : Type} (l : List (String × α))
    (h : (l.map (fun p => p.1)).Nodup) : pyDict l = l := by
  unfold pyDict
  rw [pyDict_foldl_acc l [] (fun p hp => absurd hp (List.not_mem_nil p)) h]
  simp

/-- C6: exporting a store and importing the snapshot reproduces the document
table exactly (hence an identical document count), an identical chunk count,
and identical chunk text for every chunk; vectors are reset to `None`.  The
hypotheses are the store invariants maintained by `add` and `import_json`:
the doc table is keyed by `doc_id` (a Python dict) and each entry records
its own key. -/
theorem export_import_roundtrip {V : Type} (s : Store V) (dim : ℕ) (ts : ℚ)
    (hkeys : (s.docs.map (fun p => p.1)).Nodup)
    (hcons : ∀ p ∈ s.docs, p.2.doc_id = p.1) :
    ((import_json (export_json s dim ts) : Store V).docs = s.docs) ∧
    ((import_json (export_json s dim ts) : Store V).docs.length = s.docs.length) ∧
    ((import_json (export_json s dim ts) : Store V).chunks.length = s.chunks.length) ∧
    ((import_json (export_json s dim ts) : Store V).chunks.map (fun c => c.text) =
      s.chunks.map (fun c => c.text)) := by
  have hdocs : (import_json (export_json s dim ts) : Store V).docs = s.docs := by
    simp only [import_json, export_json, List.map_map]
    have hmap : s.docs.map ((fun d => (d.doc_id, d)) ∘ (fun p => p.2)) =
        s.docs.map (fun p => p) := by
      refine List.map_congr_left ?_
      intro p hp
      show (p.2.doc_id, p.2) = p
      rw [hcons p hp]
    rw [hmap, List.map_id']
    exact pyDict_eq_self s.docs hkeys
  refine ⟨hdocs, by rw [hdocs], ?_, ?_⟩
  · simp [import_json, export_json]
  · simp [import_json, export_json]

/-- Witness for C6: the round-trip theorem applied to the fixture store. -/
theorem export_import_roundtrip_witness :
    ((import_json (export_json fruitStore 384 0) : Store Unit).chunks.map
      (fun c => c.text) = fruitStore.chunks.map (fun c => c.text)) ∧
    ((import_json (export_json fruitStore 384 0) : Store Unit).docs.length =
      fruitStore.docs.length) :=
  ⟨(export_import_roundtrip fruitStore 384 0 (by decide)
      (by intro p hp; fin_cases hp; rfl)).2.2.2,
   (export_import_roundtrip fruitStore 384 0 (by decide)
      (by intro p hp; fin_cases hp; rfl)).2.1⟩

/-! ### C7: disabled chunks never surface -/

/-- A passing filter means the chunk is not disabled. -/
theorem match_filters_not_disabled {V : Type} (c : Chunk V)
    (nsp : Option String) (tA tB : Option (List String))
    (h : match_filters c nsp tA tB = true) : c.meta.disabled = false := by
  simp only [match_filters, Bool.and_eq_true, Bool.not_eq_true'] at h
  exact h.1.1.1

/-- Mask entries address real chunks and pass the filters. -/
theorem searchMask_spec {V : Type} (s : Store V) (nsp : Option String)
    (tA tB : Option (List String)) :
    ∀ p ∈ searchMask s nsp tA tB,
      s.chunks.get? p.1 = some p.2 ∧ match_filters p.2 nsp tA tB = true := by
  intro p hp
  unfold searchMask at hp
  refine ⟨?_, (List.mem_filter.1 hp).2⟩
  rw [List.get?_eq_getElem?]
  exact List.mem_enum_iff_getElem?.1 (List.mem_filter.1 hp).1

/-- Every semantic hit addresses a filter-passing chunk. -/
theorem semantic_search_mem {V : Type} (e : EmbedModel V) (s : Store V)
    (q : String) (k : Nat) (nsp : Option String) (tA tB : Option (List String)) :
    ∀ pr ∈ semantic_search e s q k nsp tA tB,
      ∃ c : Chunk V, s.chunks.get? pr.1 = some c ∧
        match_filters c nsp tA tB = true := by
  intro pr hpr
  unfold semantic_search at hpr
  split at hpr
  · cases hpr
  split at hpr
  · cases hpr
  have hmem : pr ∈ semSims e s q nsp tA tB :=
    ((List.perm_insertionSort _ _).mem_iff).1 (List.mem_of_mem_take hpr)
  obtain ⟨p, hpmask, heq⟩ := List.mem_map.1 hmem
  obtain ⟨hget, hfil⟩ := searchMask_spec s nsp tA tB p hpmask
  exact ⟨p.2, by rw [← heq]; exact hget, hfil⟩

/-- Every lexical hit addresses a filter-passing chunk. -/
theorem bm25_search_mem {V : Type} (logf : ℚ → ℚ) (s : Store V) (q : String)
    (k : Nat) (nsp : Option String) (tA tB : Option (List String)) (k1 b : ℚ) :
    ∀ pr ∈ bm25_search logf s q k nsp tA tB k1 b,
      ∃ c : Chunk V, s.chunks.get? pr.1 = some c ∧
        match_filters c nsp tA tB = true := by
  intro pr hpr
  unfold bm25_search at hpr
  split at hpr
  · cases hpr
  split at hpr
  · cases hpr
  have hmem : pr ∈ bm25Scores logf s q nsp tA tB k1 b :=
    ((List.perm_insertionSort _ _).mem_iff).1 (List.mem_of_mem_take hpr)
  obtain ⟨p, hpmask, heq⟩ := List.mem_map.1 (List.mem_of_mem_filter hmem)
  obtain ⟨hget, hfil⟩ := searchMask_spec s nsp tA tB p hpmask
  exact ⟨p.2, by rw [← heq]; exact hget, hfil⟩

/-- `dedupFirst` only returns members of its input. -/
theorem dedupFirst_subset : ∀ (l : List Nat), ∀ x ∈ dedupFirst l, x ∈ l := by
  intro l
  induction l with
  | nil => intro x hx; cases hx
  | cons y ys ih =>
    intro x hx
    rcases List.mem_cons.1 hx with hx | hx
    · exact hx ▸ List.mem_cons_self _ _
    · exact List.mem_cons_of_mem _ (ih x (List.mem_of_mem_filter hx))

/-- Every hybrid hit addresses a filter-passing chunk. -/
theorem hybrid_search_mem {V : Type} (e : EmbedModel V) (logf : ℚ → ℚ)
    (s : Store V) (q : String) (k : Nat) (alpha : ℚ) (nsp : Option String)
    (tA tB : Option (List String)) :
    ∀ pr ∈ hybrid_search e logf s q k alpha nsp tA tB,
      ∃ c : Chunk V, s.chunks.get? pr.1 = some c ∧
        match_filters c nsp tA tB = true := by
  intro pr hpr
  unfold hybrid_search at hpr
  have hmem := ((List.perm_insertionSort _ _).mem_iff).1 (List.mem_of_mem_take hpr)
  obtain ⟨i, hikey, heq⟩ := List.mem_map.1 hmem
  have hiu := dedupFirst_subset _ i hikey
  rcases List.mem_append.1 hiu with hi | hi
  · obtain ⟨pr', hpr', heq'⟩ := List.mem_map.1 hi
    obtain ⟨c, hc, hf⟩ := semantic_search_mem e s q (max k 20) nsp tA tB pr' hpr'
    refine ⟨c, ?_, hf⟩
    rw [← heq]
    simpa [heq'] using hc
  · obtain ⟨pr', hpr', heq'⟩ := List.mem_map.1 hi
    obtain ⟨c, hc, hf⟩ := bm25_search_mem logf s q (max k 20) nsp tA tB (3/2) (3/4) pr' hpr'
    refine ⟨c, ?_, hf⟩
    rw [← heq]
    simpa [heq'] using hc

/-- C7: for every store and every query, a chunk whose metadata `disabled`
flag is set never appears among the hits returned by `search`, in any of
the three modes. -/
theorem search_excludes_disabled {V : Type} (e : EmbedModel V) (logf : ℚ → ℚ)
    (s : Store V) (q : RetrievalQuery) :
    ∀ hit ∈ search e logf s q, hit.metadata.disabled = false := by
  intro hit hhit
  unfold search at hhit
  split at hhit
  · cases hhit
  obtain ⟨pr, hpr, heq⟩ := List.mem_map.1 hhit
  have hex : ∃ c : Chunk V, s.chunks.get? pr.1 = some c ∧
      match_filters c q.nsp q.tags_any q.tags_all = true := by
    cases hm : q.mode
    · rw [hm] at hpr
      exact semantic_search_mem e s q.text q.top_k.toNat q.nsp q.tags_any q.tags_all pr hpr
    · rw [hm] at hpr
      exact bm25_search_mem logf s q.text q.top_k.toNat q.nsp q.tags_any q.tags_all
        (3/2) (3/4) pr hpr
    · rw [hm] at hpr
      exact hybrid_search_mem e logf s q.text q.top_k.toNat q.alpha q.nsp
        q.tags_any q.tags_all pr hpr
  obtain ⟨c, hc, hf⟩ := hex
  rw [hc] at heq
  rw [← heq]
  exact match_filters_not_disabled c q.nsp q.tags_any q.tags_all hf

/-- Store with one enabled and one disabled chunk, both matching the query
term. -/
def partlyDisabledStore : Store Unit :=
  { chunks := [
      { id := "d:0", text := "apple", meta := default, vec := none },
      { id := "d:1", text := "apple apple",
        meta := { nsp := none, tags := [], order := 1, disabled := true,
                  extra := [] }, vec := none }],
    docs := [] }

/-- Lexical query over `partlyDisabledStore`. -/
def appleBm25Query : RetrievalQuery :=
  { text := "apple", top_k := 2, mode := .bm25, alpha := 7/10,
    nsp := none, tags_any := none, tags_all := none }

/-- Witness for C7: the lexical search over `partlyDisabledStore` returns
the concrete hit below (the enabled chunk; the disabled one matches the
query too but is excluded), and the theorem applies to it. -/
theorem search_excludes_disabled_witness :
    ({ id := "d:0", content := "apple", score := 4/17, metadata := default } :
      RetrievalHit).metadata.disabled = false :=
  search_excludes_disabled unitEmbed linLog partlyDisabledStore appleBm25Query
    { id := "d:0", content := "apple", score := 4/17, metadata := default }
    (by decide)

/-! ### Sorting lemmas

Properties of the stable descending sort needed by the ranking claims:
the output is a permutation, it is sorted by score, stability turns a
strictly increasing tag on the input into a strict combined order on the
output, and a sorted permutation under an antisymmetric strict order is
unique. -/

/-- The strict order "better score, or equal score and earlier tag" that a
stable descending sort establishes. -/
def keyTagRel {α : Type} (key : α → ℚ) (tag : α → ℕ) (a b : α) : Prop :=
  key b < key a ∨ (key a = key b ∧ tag a < tag b)

theorem pySortDesc_perm {α : Type} (key : α → ℚ) (l : List α) :
    List.Perm (pySortDesc key l) l :=
  List.perm_insertionSort _ l

theorem pySortDesc_sorted {α : Type} (key : α → ℚ) (l : List α) :
    (pySortDesc key l).Pairwise (fun a b => key b ≤ key a) := by
  haveI : IsTotal α (fun a b => key b ≤ key a) := ⟨fun a b => le_total (key b) (key a)⟩
  haveI : IsTrans α (fun a b => key b ≤ key a) :=
    ⟨fun _ _ _ h1 h2 => le_trans h2 h1⟩
  exact List.sorted_insertionSort _ l

theorem pySortDesc_eq_self {α : Type} (key : α → ℚ) (l : List α)
    (h : l.Pairwise (fun a b => key b ≤ key a)) : pySortDesc key l = l :=
  List.Sorted.insertionSort_eq h

/-- Inserting an element whose tag is smaller than every tag in a
`keyTagRel`-sorted list keeps the list `keyTagRel`-sorted. -/
theorem orderedInsert_keyTagRel {α : Type} (key : α → ℚ) (tag : α → ℕ)
    (x : α) : ∀ (L : List α), L.Pairwise (keyTagRel key tag) →
    (∀ y ∈ L, tag x < tag y) →
    (L.orderedInsert (fun a b => key b ≤ key a) x).Pairwise (keyTagRel key tag) := by
  intro L
  induction L with
  | nil => intro _ _; simp [List.orderedInsert, List.pairwise_singleton]
  | cons y ys ih =>
    intro hL htag
    simp only [List.orderedInsert]
    split
    · rename_i hxy
      refine List.pairwise_cons.2 ⟨?_, hL⟩
      intro z hz
      have hzley : ∀ w ∈ ys, key w ≤ key y := by
        intro w hw
        rcases (List.pairwise_cons.1 hL).1 w hw with h | h
        · exact le_of_lt h
        · exact le_of_eq h.1.symm
      have hzx : key z ≤ key x := by
        rcases List.mem_cons.1 hz with hzy | hzys
        · exact hzy ▸ hxy
        · exact le_trans (hzley z hzys) hxy
      rcases lt_or_eq_of_le hzx with hlt | heq
      · exact Or.inl hlt
      · exact Or.inr ⟨heq.symm, htag z hz⟩
    · rename_i hxy
      refine List.pairwise_cons.2 ⟨?_, ih (List.pairwise_cons.1 hL).2
        (fun w hw => htag w (List.mem_cons_of_mem _ hw))⟩
      intro z hz
      rcases (List.mem_orderedInsert _).1 hz with hzx | hzys
      · subst hzx
        exact Or.inl (lt_of_not_le hxy)
      · exact (List.pairwise_cons.1 hL).1 z hzys

/-- Stability: sorting a list whose tag is strictly increasing yields a list
sorted under the strict combined order `keyTagRel`. -/
theorem pySortDesc_keyTagRel {α : Type} (key : α → ℚ) (tag : α → ℕ) :
    ∀ (l : List α), l.Pairwise (fun a b => tag a < tag b) →
    (pySortDesc key l).Pairwise (keyTagRel key tag) := by
  intro l
  induction l with
  | nil => intro _; exact List.Pairwise.nil
  | cons x xs ih =>
    intro h
    have hx := (List.pairwise_cons.1 h).1
    have hxs := (List.pairwise_cons.1 h).2
    show (List.orderedInsert _ x (pySortDesc key xs)).Pairwise (keyTagRel key tag)
    refine orderedInsert_keyTagRel key tag x (pySortDesc key xs) (ih hxs) ?_
    intro y hy
    exact hx y ((pySortDesc_perm key xs).mem_iff.1 hy)

/-- A permutation pair sorted under an antisymmetric relation is equal. -/
theorem perm_pairwise_eq {α : Type} (S : α → α → Prop)
    (hanti : ∀ a b, S a b → S b a → a = b) {l₁ l₂ : List α} (hp : List.Perm l₁ l₂)
    (h₁ : l₁.Pairwise S) (h₂ : l₂.Pairwise S) : l₁ = l₂ := by
  haveI : IsAntisymm α S := ⟨hanti⟩
  exact List.eq_of_perm_of_sorted hp h₁ h₂

/-- `keyTagRel` is antisymmetric. -/
theorem keyTagRel_antisymm {α : Type} (key : α → ℚ) (tag : α → ℕ) :
    ∀ a b, keyTagRel key tag a b → keyTagRel key tag b a → a = b := by
  intro a b hab hba
  exfalso
  rcases hab with h1 | ⟨he1, ht1⟩ <;> rcases hba with h2 | ⟨he2, ht2⟩
  · exact absurd (lt_trans h1 h2) (lt_irrefl _)
  · exact absurd (he2 ▸ h1) (lt_irrefl _)
  · exact absurd (he1 ▸ h2) (lt_irrefl _)
  · exact absurd (lt_trans ht1 ht2) (lt_irrefl _)

/-- A descending-sorted list with pairwise distinct keys is strictly
descending. -/
theorem pairwise_strict_of_nodup {α : Type} (key : α → ℚ) (l : List α)
    (hs : l.Pairwise (fun a b => key b ≤ key a))
    (hn : (l.map key).Nodup) : l.Pairwise (fun a b => key b < key a) := by
  have hne : l.Pairwise (fun a b => key a ≠ key b) := by
    have := (List.pairwise_map.1 hn)
    exact this.imp (fun h => h)
  exact (hs.and hne).imp (fun ⟨h1, h2⟩ => lt_of_le_of_ne h1 (fun he => h2 he.symm))

/-! ### RRF fusion (`rag_plus.rrf_fuse`) -/

/-- `rag_plus.Retrieved`. -/
structure Retrieved where
  content : String
  score : ℚ
  meta : List (String × String)
deriving DecidableEq

/-- The dedup key of `rrf_fuse`: `take_head_para(it.content, 96).lower()`. -/
def rrfKey (it : Retrieved) : String := toLowerStr (take_head_para it.content 96)

/-- Python `enumerate(rl, start=r)`. -/
def enumRank (r : Nat) : List Retrieved → List (Nat × Retrieved)
  | [] => []
  | x :: xs => (r, x) :: enumRank (r + 1) xs

/-- All `(rank, item)` pairs of the double loop of `rrf_fuse`, in traversal
order (rank is 1-based within each list). -/
def rrfEnum (rls : List (List Retrieved)) : List (Nat × Retrieved) :=
  rls.flatMap (fun rl => enumRank 1 rl)

/-- Python `m.get(k, d)` on an association-list dict. -/
def assocGet {α : Type} (m : List (String × α)) (k : String) (d : α) : α :=
  match m.find? (fun p => p.1 = k) with
  | some p => p.2
  | none => d

/-- The `scores` dict of `rrf_fuse`:
`scores[kstr] = scores.get(kstr, 0.0) + 1.0 / (c + rnk)`. -/
def rrfScores (c : Nat) (rls : List (List Retrieved)) : List (String × ℚ) :=
  (rrfEnum rls).foldl
    (fun m p => pyDictInsert m (rrfKey p.2)
      (assocGet m (rrfKey p.2) 0 + 1 / ((c : ℚ) + (p.1 : ℚ)))) []

/-- The `items` dict of `rrf_fuse`: `items[kstr] = it`. -/
def rrfItems (rls : List (List Retrieved)) : List (String × Retrieved) :=
  (rrfEnum rls).foldl (fun m p => pyDictInsert m (rrfKey p.2) p.2) []

/-- `rag_plus.rrf_fuse`: sort the deduplicated items by their aggregate RRF
score, descending, and truncate to `k`. -/
def rrf_fuse (rls : List (List Retrieved)) (k c : Nat) : List Retrieved :=
  (pySortDesc (fun it => assocGet (rrfScores c rls) (rrfKey it) 0)
    ((rrfItems rls).map (fun p => p.2))).take k

/-- Closed form of an aggregate RRF score: the sum of `1/(c + rank)` over
every occurrence of the key. -/
def rrfScoreSum (c : Nat) (rls : List (List Retrieved)) (key : String) : ℚ :=
  ((rrfEnum rls).map
    (fun p => if rrfKey p.2 = key then 1 / ((c : ℚ) + (p.1 : ℚ)) else 0)).sum

/-! Dict lemmas. -/

theorem assocGet_cons {α : Type} (q : String × α) (m : List (String × α))
    (key : String) (d : α) :
    assocGet (q :: m) key d = if q.1 = key then q.2 else assocGet m key d := by
  unfold assocGet
  by_cases h : q.1 = key
  · rw [List.find?_cons_of_pos _ (by simpa using h), if_pos h]
  · rw [List.find?_cons_of_neg _ (by simpa using h), if_neg h]

/-- Replacing the `k` entries does not change lookups of other keys. -/
theorem assocGet_map_replace_ne {α : Type} (m : List (String × α))
    (k key : String) (v d : α) (hne : key ≠ k) :
    assocGet (m.map (fun p => if p.1 = k then (k, v) else p)) key d =
      assocGet m key d := by
  induction m with
  | nil => rfl
  | cons q qs ih =>
    rw [List.map_cons, assocGet_cons, assocGet_cons]
    by_cases hq : q.1 = k
    · rw [if_pos hq]
      rw [show ((k, v) : String × α).1 = k from rfl]
      rw [if_neg (fun h => hne h.symm), if_neg (fun h => hne (hq ▸ h).symm), ih]
    · rw [if_neg hq]
      by_cases hqk : q.1 = key
      · rw [if_pos hqk, if_pos hqk]
      · rw [if_neg hqk, if_neg hqk, ih]

/-- After replacing, looking up `k` gives the new value (when `k` was
present). -/
theorem assocGet_map_replace_eq {α : Type} (m : List (String × α))
    (k : String) (v d : α) (hany : m.any (fun p => p.1 = k) = true) :
    assocGet (m.map (fun p => if p.1 = k then (k, v) else p)) k d = v := by
  induction m with
  | nil => cases hany
  | cons q qs ih =>
    rw [List.map_cons, assocGet_cons]
    by_cases hq : q.1 = k
    · rw [if_pos hq]
      rw [show ((k, v) : String × α).1 = k from rfl, if_pos rfl]
    · rw [if_neg hq, if_neg hq]
      refine ih ?_
      rw [List.any_cons] at hany
      simpa [hq] using hany

/-- Looking up an absent key yields the default. -/
theorem assocGet_not_any {α : Type} (m : List (String × α)) (k : String)
    (d : α) (hany : m.any (fun p => p.1 = k) = false) :
    assocGet m k d = d := by
  induction m with
  | nil => rfl
  | cons q qs ih =>
    rw [List.any_cons] at hany
    have hq : ¬ q.1 = k := by
      intro h
      rw [h] at hany
      simp at hany
    rw [assocGet_cons, if_neg hq]
    refine ih ?_
    simpa [hq] using hany

/-- CPython dict write: `m[k] = v` updates the lookup of `k` and nothing
else. -/
theorem assocGet_pyDictInsert {α : Type} (m : List (String × α))
    (k key : String) (v d : α) :
    assocGet (pyDictInsert m k v) key d =
      if key = k then v else assocGet m key d := by
  unfold pyDictInsert
  by_cases hany : m.any (fun p => p.1 = k) = true
  · rw [if_pos hany]
    by_cases hk : key = k
    · subst hk
      rw [if_pos rfl]
      exact assocGet_map_replace_eq m key v d hany
    · rw [if_neg hk]
      exact assocGet_map_replace_ne m k key v d hk
  · rw [if_neg hany]
    show (match (m ++ [(k, v)]).find? (fun p => p.1 = key) with
      | some p => p.2
      | none => d) = if key = k then v else assocGet m key d
    rw [List.find?_append]
    cases hfind : m.find? (fun p => decide (p.1 = key)) with
    | some p =>
      have hp : p.1 = key := by
        have := List.find?_some hfind
        simpa using this
      have hkk : ¬ key = k := by
        intro h
        apply hany
        refine List.any_eq_true.2 ⟨p, List.mem_of_find?_eq_some hfind, ?_⟩
        simp [hp, h]
      rw [if_neg hkk]
      show p.2 = assocGet m key d
      unfold assocGet
      rw [hfind]
    | none =>
      simp only [Option.none_or]
      by_cases hk : key = k
      · rw [List.find?_cons_of_pos _ (by simp [hk]), if_pos hk]
      · rw [List.find?_cons_of_neg _ (by simpa using fun h => hk h.symm)]
        rw [if_neg hk]
        show d = assocGet m key d
        unfold assocGet
        rw [hfind]

/-- Members of a dict after a write come from the dict or are the written
pair. -/
theorem mem_pyDictInsert {α : Type} (m : List (String × α)) (k : String)
    (v : α) : ∀ q ∈ pyDictInsert m k v, q ∈ m ∨ q = (k, v) := by
  intro q hq
  unfold pyDictInsert at hq
  split at hq
  · obtain ⟨p, hp, heq⟩ := List.mem_map.1 hq
    by_cases hpk : p.1 = k
    · rw [if_pos hpk] at heq
      exact Or.inr heq.symm
    · rw [if_neg hpk] at heq
      exact Or.inl (heq ▸ hp)
  · rcases List.mem_append.1 hq with hq | hq
    · exact Or.inl hq
    · exact Or.inr (List.mem_singleton.1 hq)

/-- Keys of a dict after a write: unchanged when the key was present,
extended by the key otherwise. -/
theorem keys_pyDictInsert {α : Type} (m : List (String × α)) (k : String)
    (v : α) :
    (pyDictInsert m k v).map (fun p => p.1) =
      if m.any (fun p => p.1 = k) = true then m.map (fun p => p.1)
      else m.map (fun p => p.1) ++ [k] := by
  unfold pyDictInsert
  by_cases hany : m.any (fun p => p.1 = k) = true
  · rw [if_pos hany, if_pos hany, List.map_map]
    refine List.map_congr_left ?_
    intro p _
    by_cases hpk : p.1 = k
    · simp [hpk]
    · simp [hpk]
  · rw [if_neg hany, if_neg hany, List.map_append]
    rfl

/-- A write preserves distinctness of keys. -/
theorem keys_nodup_pyDictInsert {α : Type} (m : List (String × α))
    (k : String) (v : α) (h : (m.map (fun p => p.1)).Nodup) :
    ((pyDictInsert m k v).map (fun p => p.1)).Nodup := by
  rw [keys_pyDictInsert]
  by_cases hany : m.any (fun p => p.1 = k) = true
  · rw [if_pos hany]
    exact h
  · rw [if_neg hany]
    have hk : k ∉ m.map (fun p => p.1) := by
      intro hmem
      obtain ⟨p, hp, hpk⟩ := List.mem_map.1 hmem
      exact hany (List.any_eq_true.2 ⟨p, hp, by simp [hpk]⟩)
    simp [List.nodup_append, h, hk]

/-- A write makes its key present and keeps every present key present. -/
theorem key_mem_pyDictInsert {α : Type} (m : List (String × α)) (k : String)
    (v : α) :
    k ∈ (pyDictInsert m k v).map (fun p => p.1) ∧
    ∀ key ∈ m.map (fun p => p.1), key ∈ (pyDictInsert m k v).map (fun p => p.1) := by
  rw [keys_pyDictInsert]
  by_cases hany : m.any (fun p => p.1 = k) = true
  · rw [if_pos hany]
    obtain ⟨p, hp, hpk⟩ := List.any_eq_true.1 hany
    exact ⟨List.mem_map.2 ⟨p, hp, of_decide_eq_true hpk⟩, fun key hk => hk⟩
  · rw [if_neg hany]
    exact ⟨List.mem_append_right _ (List.mem_singleton.2 rfl),
      fun key hk => List.mem_append_left _ hk⟩

/-! Score characterization and bounds. -/

/-- The `scores` fold computes, for every key, the running sum of
`1/(c + rank)` over the key's occurrences. -/
theorem rrfScores_foldl (c : Nat) (key : String) :
    ∀ (ps : List (Nat × Retrieved)) (m : List (String × ℚ)),
      assocGet (ps.foldl (fun m p => pyDictInsert m (rrfKey p.2)
        (assocGet m (rrfKey p.2) 0 + 1 / ((c : ℚ) + (p.1 : ℚ)))) m) key 0 =
      assocGet m key 0 +
        ((ps.map (fun p => if rrfKey p.2 = key then 1 / ((c : ℚ) + (p.1 : ℚ)) else 0)).sum) := by
  intro ps
  induction ps with
  | nil => intro m; simp
  | cons p ps' ih =>
    intro m
    rw [List.foldl_cons, ih, assocGet_pyDictInsert, List.map_cons, List.sum_cons]
    by_cases h : key = rrfKey p.2
    · rw [if_pos h, if_pos h.symm, h]
      ring
    · rw [if_neg h, if_neg (fun he => h he.symm)]
      ring

/-- Aggregate RRF scores are the closed-form sums. -/
theorem rrfScores_get (c : Nat) (rls : List (List Retrieved)) (key : String) :
    assocGet (rrfScores c rls) key 0 = rrfScoreSum c rls key := by
  unfold rrfScores rrfScoreSum
  rw [rrfScores_foldl]
  show (0 : ℚ) + _ = _
  ring

/-- Entries of the `items` dict pair every value with its own key. -/
theorem rrfItems_val_key (rls : List (List Retrieved)) :
    ∀ q ∈ rrfItems rls, q.1 = rrfKey q.2 := by
  unfold rrfItems
  suffices h : ∀ (ps : List (Nat × Retrieved)) (m : List (String × Retrieved)),
      (∀ q ∈ m, q.1 = rrfKey q.2) →
      ∀ q ∈ ps.foldl (fun m p => pyDictInsert m (rrfKey p.2) p.2) m, q.1 = rrfKey q.2 by
    exact h (rrfEnum rls) [] (by intro q hq; cases hq)
  intro ps
  induction ps with
  | nil => intro m hm q hq; exact hm q hq
  | cons p ps' ih =>
    intro m hm q hq
    rw [List.foldl_cons] at hq
    refine ih _ ?_ q hq
    intro r hr
    rcases mem_pyDictInsert _ _ _ r hr with hr | hr
    · exact hm r hr
    · rw [hr]

/-- Keys of the `items` dict are distinct. -/
theorem rrfItems_keys_nodup (rls : List (List Retrieved)) :
    ((rrfItems rls).map (fun p => p.1)).Nodup := by
  unfold rrfItems
  suffices h : ∀ (ps : List (Nat × Retrieved)) (m : List (String × Retrieved)),
      ((m.map (fun p => p.1)).Nodup) →
      ((ps.foldl (fun m p => pyDictInsert m (rrfKey p.2) p.2) m).map (fun p => p.1)).Nodup by
    exact h (rrfEnum rls) [] List.nodup_nil
  intro ps
  induction ps with
  | nil => intro m hm; exact hm
  | cons p ps' ih =>
    intro m hm
    rw [List.foldl_cons]
    exact ih _ (keys_nodup_pyDictInsert _ _ _ hm)

/-- Every key occurring in the traversal is a key of the `items` dict. -/
theorem rrfItems_covers (rls : List (List Retrieved)) :
    ∀ p ∈ rrfEnum rls, rrfKey p.2 ∈ (rrfItems rls).map (fun q => q.1) := by
  unfold rrfItems
  suffices h : ∀ (ps : List (Nat × Retrieved)) (m : List (String × Retrieved)),
      ∀ p ∈ ps, rrfKey p.2 ∈
        (ps.foldl (fun m p => pyDictInsert m (rrfKey p.2) p.2) m).map (fun q => q.1) by
    exact h (rrfEnum rls) []
  intro ps
  induction ps with
  | nil => intro m p hp; cases hp
  | cons x ps' ih =>
    intro m p hp
    rw [List.foldl_cons]
    rcases List.mem_cons.1 hp with hp | hp
    · subst hp
      suffices hmono : ∀ (qs : List (Nat × Retrieved)) (m' : List (String × Retrieved)),
          ∀ key ∈ m'.map (fun q => q.1),
          key ∈ (qs.foldl (fun m p => pyDictInsert m (rrfKey p.2) p.2) m').map (fun q => q.1) by
        exact hmono ps' _ (rrfKey p.2) (key_mem_pyDictInsert m (rrfKey p.2) p.2).1
      intro qs
      induction qs with
      | nil => intro m' key hk; exact hk
      | cons y qs' ihq =>
        intro m' key hk
        rw [List.foldl_cons]
        exact ihq _ key ((key_mem_pyDictInsert m' (rrfKey y.2) y.2).2 key hk)
    · exact ih _ p hp

/-! Per-list score bounds. -/

/-- Members of `enumRank r l` carry ranks `≥ r` and items of `l`. -/
theorem enumRank_mem (r : Nat) : ∀ (l : List Retrieved),
    ∀ p ∈ enumRank r l, r ≤ p.1 ∧ p.2 ∈ l := by
  intro l
  induction l generalizing r with
  | nil => intro p hp; cases hp
  | cons x xs ih =>
    intro p hp
    rcases List.mem_cons.1 hp with hp | hp
    · subst hp
      exact ⟨le_refl r, List.mem_cons_self _ _⟩
    · obtain ⟨h1, h2⟩ := ih (r + 1) p hp
      exact ⟨le_trans (Nat.le_succ r) h1, List.mem_cons_of_mem _ h2⟩

/-- A list of zeros sums to zero. -/
theorem qsum_zeros (l : List ℚ) (h : ∀ x ∈ l, x = 0) : l.sum = 0 := by
  induction l with
  | nil => rfl
  | cons x xs ih =>
    rw [List.sum_cons, h x (List.mem_cons_self _ _),
      ih (fun y hy => h y (List.mem_cons_of_mem _ hy)), add_zero]

/-- A list, each of whose members is at most `a`, sums to at most
`length * a`. -/
theorem qsum_le_const (a : ℚ) : ∀ (l : List ℚ), (∀ x ∈ l, x ≤ a) →
    l.sum ≤ (l.length : ℚ) * a := by
  intro l
  induction l with
  | nil => intro _; simp
  | cons x xs ih =>
    intro h
    rw [List.sum_cons, List.length_cons]
    have h1 := h x (List.mem_cons_self _ _)
    have h2 := ih (fun y hy => h y (List.mem_cons_of_mem _ hy))
    push_cast
    calc x + xs.sum ≤ a + (xs.length : ℚ) * a := add_le_add h1 h2
    _ = ((xs.length : ℚ) + 1) * a := by ring

/-- A list of copies of `a` sums to `length * a`. -/
theorem qsum_const (a : ℚ) : ∀ (l : List ℚ), (∀ x ∈ l, x = a) →
    l.sum = (l.length : ℚ) * a := by
  intro l
  induction l with
  | nil => intro _; simp
  | cons x xs ih =>
    intro h
    rw [List.sum_cons, List.length_cons, h x (List.mem_cons_self _ _),
      ih (fun y hy => h y (List.mem_cons_of_mem _ hy))]
    push_cast
    ring

/-- One list's contribution to the score of any key is at most `1/(c + r)`
when the list's keys are distinct and ranks start at `r ≥ 1`. -/
theorem enumRank_contrib_le (c : Nat) (key : String) :
    ∀ (l : List Retrieved) (r : Nat), 1 ≤ r → ((l.map rrfKey).Nodup) →
    ((enumRank r l).map
      (fun p => if rrfKey p.2 = key then 1 / ((c : ℚ) + (p.1 : ℚ)) else 0)).sum ≤
      1 / ((c : ℚ) + (r : ℚ)) := by
  intro l
  induction l with
  | nil =>
    intro r hr _
    show (0 : ℚ) ≤ 1 / ((c : ℚ) + (r : ℚ))
    positivity
  | cons x xs ih =>
    intro r hr hnd
    rw [List.map_cons, List.nodup_cons] at hnd
    show ((if rrfKey x = key then 1 / ((c : ℚ) + (r : ℚ)) else 0) ::
      (enumRank (r + 1) xs).map _).sum ≤ 1 / ((c : ℚ) + (r : ℚ))
    rw [List.sum_cons]
    by_cases hx : rrfKey x = key
    · rw [if_pos hx]
      have hzero : ((enumRank (r + 1) xs).map
          (fun p => if rrfKey p.2 = key then 1 / ((c : ℚ) + (p.1 : ℚ)) else 0)).sum = 0 := by
        refine qsum_zeros _ ?_
        intro y hy
        obtain ⟨p, hp, hpe⟩ := List.mem_map.1 hy
        have hne : rrfKey p.2 ≠ key := by
          intro he
          exact hnd.1 (hx ▸ he ▸ List.mem_map.2 ⟨p.2, (enumRank_mem _ _ p hp).2, rfl⟩)
        rw [← hpe, if_neg hne]
      rw [hzero, add_zero]
    · rw [if_neg hx, zero_add]
      refine le_trans (ih (r + 1) (le_trans hr (Nat.le_succ r)) hnd.2) ?_
      refine one_div_le_one_div_of_le ?_ ?_
      · have : (0 : ℚ) < (r : ℚ) := by exact_mod_cast hr
        positivity
      · push_cast
        linarith

/-- One list whose head has key `kX` (and whose keys are distinct)
contributes exactly `1/(c+1)` to the score of `kX`. -/
theorem enumRank_contrib_head (c : Nat) (kX : String) (x : Retrieved)
    (xs : List Retrieved) (hx : rrfKey x = kX)
    (hnd : ((x :: xs).map rrfKey).Nodup) :
    ((enumRank 1 (x :: xs)).map
      (fun p => if rrfKey p.2 = kX then 1 / ((c : ℚ) + (p.1 : ℚ)) else 0)).sum =
      1 / ((c : ℚ) + 1) := by
  rw [List.map_cons, List.nodup_cons] at hnd
  show ((if rrfKey x = kX then 1 / ((c : ℚ) + (1 : ℕ)) else 0) ::
    (enumRank 2 xs).map _).sum = 1 / ((c : ℚ) + 1)
  rw [List.sum_cons, if_pos hx]
  have hzero : ((enumRank 2 xs).map
      (fun p => if rrfKey p.2 = kX then 1 / ((c : ℚ) + (p.1 : ℚ)) else 0)).sum = 0 := by
    refine qsum_zeros _ ?_
    intro y hy
    obtain ⟨p, hp, hpe⟩ := List.mem_map.1 hy
    have hne : rrfKey p.2 ≠ kX := by
      intro he
      exact hnd.1 (hx ▸ he ▸ List.mem_map.2 ⟨p.2, (enumRank_mem _ _ p hp).2, rfl⟩)
    rw [← hpe, if_neg hne]
  rw [hzero, add_zero]
  norm_num

/-- The aggregate score is the sum of per-list contributions. -/
theorem rrfScoreSum_eq_lists (c : Nat) (key : String) :
    ∀ (rls : List (List Retrieved)),
    rrfScoreSum c rls key = (rls.map (fun l => ((enumRank 1 l).map
      (fun p => if rrfKey p.2 = key then 1 / ((c : ℚ) + (p.1 : ℚ)) else 0)).sum)).sum := by
  intro rls
  induction rls with
  | nil => rfl
  | cons l rls' ih =>
    unfold rrfScoreSum rrfEnum at *
    rw [List.flatMap_cons, List.map_append, List.sum_append, ih, List.map_cons,
      List.sum_cons]

/-- The head of the stable descending sort is the strict maximum, when one
exists. -/
theorem pySortDesc_head_max {α : Type} (key : α → ℚ) (l : List α) (x : α)
    (hx : x ∈ l) (hmax : ∀ y ∈ l, y ≠ x → key y < key x) :
    (pySortDesc key l).head? = some x := by
  cases hh : pySortDesc key l with
  | nil =>
    exfalso
    have hmem : x ∈ pySortDesc key l := (pySortDesc_perm key l).mem_iff.2 hx
    rw [hh] at hmem
    cases hmem
  | cons h t =>
    have hsort := pySortDesc_sorted key l
    rw [hh] at hsort
    have hhl : h ∈ l := (pySortDesc_perm key l).mem_iff.1
      (hh ▸ List.mem_cons_self h t)
    by_cases hhx : h = x
    · rw [hhx]
      rfl
    · exfalso
      have hxt : x ∈ h :: t := by
        rw [← hh]
        exact (pySortDesc_perm key l).mem_iff.2 hx
      rcases List.mem_cons.1 hxt with he | hxt
      · exact hhx he.symm
      · exact absurd (hmax h hhl hhx)
          (not_lt.2 ((List.pairwise_cons.1 hsort).1 x hxt))

/-- Truncation does not change a non-empty head. -/
theorem head?_take {α : Type} (k : Nat) (hk : 1 ≤ k) (l : List α) :
    (l.take k).head? = l.head? := by
  cases k with
  | zero => cases hk
  | succ k' => cases l <;> rfl

/-- Distinct keys make the key projection injective on dict entries. -/
theorem nodup_keys_inj {α : Type} (m : List (String × α))
    (h : (m.map (fun p => p.1)).Nodup) :
    ∀ q ∈ m, ∀ q' ∈ m, q.1 = q'.1 → q = q' :=
  fun _ hq _ hq' he => List.inj_on_of_nodup_map h hq hq' he

/-- C4: for reciprocal rank fusion with `c = 60` over two or more ranked
lists — each a genuine ranking, with no duplicate keys inside one list —
whose first place is everywhere held by key `kX`, the aggregate score of
`kX` strictly exceeds the aggregate score of every other key, and the fused
output has the `kX` item at rank 1.  A distinct item "ranked 1st in exactly
one of the lists" cannot coexist with an item ranked 1st in every list, so
the claim's comparison is read as the everywhere-first item strictly
dominating every other pooled item (which subsumes items first in at most
one list); the "two lists both rank X first" instance is the case
`rls.length = 2`. -/
theorem rrf_first_everywhere_dominates (rls : List (List Retrieved))
    (k : Nat) (kX : String) (hm : 2 ≤ rls.length) (hk : 1 ≤ k)
    (hnodup : ∀ l ∈ rls, (l.map rrfKey).Nodup)
    (hX : ∀ l ∈ rls, l.head?.map rrfKey = some kX) :
    (∀ key', key' ≠ kX → rrfScoreSum 60 rls key' < rrfScoreSum 60 rls kX) ∧
    (rrf_fuse rls k 60).head?.map rrfKey = some kX := by
  have hshape : ∀ l ∈ rls, ∃ x xs, l = x :: xs ∧ rrfKey x = kX := by
    intro l hl
    cases l with
    | nil => cases hX [] hl
    | cons x xs =>
      refine ⟨x, xs, rfl, ?_⟩
      have := hX _ hl
      simp only [List.head?_cons, Option.map_some] at this
      injection this
  have hscoreX : rrfScoreSum 60 rls kX = (rls.length : ℚ) * (1 / 61) := by
    rw [rrfScoreSum_eq_lists]
    have hlen : (rls.map (fun l => ((enumRank 1 l).map
        (fun p => if rrfKey p.2 = kX then 1 / ((60 : ℚ) + (p.1 : ℚ)) else 0)).sum)).length
        = rls.length := List.length_map _ _
    rw [← hlen]
    refine qsum_const (1 / 61) _ ?_
    intro v hv
    obtain ⟨l, hl, hle⟩ := List.mem_map.1 hv
    obtain ⟨x, xs, hcons, hkx⟩ := hshape l hl
    rw [← hle, hcons, enumRank_contrib_head 60 kX x xs hkx (hcons ▸ hnodup l hl)]
    norm_num
  have hscoreOther : ∀ key', key' ≠ kX →
      rrfScoreSum 60 rls key' ≤ (rls.length : ℚ) * (1 / 62) := by
    intro key' hne
    rw [rrfScoreSum_eq_lists]
    have hlen : (rls.map (fun l => ((enumRank 1 l).map
        (fun p => if rrfKey p.2 = key' then 1 / ((60 : ℚ) + (p.1 : ℚ)) else 0)).sum)).length
        = rls.length := List.length_map _ _
    rw [← hlen]
    refine qsum_le_const (1 / 62) _ ?_
    intro v hv
    obtain ⟨l, hl, hle⟩ := List.mem_map.1 hv
    obtain ⟨x, xs, hcons, hkx⟩ := hshape l hl
    have hnd := hcons ▸ hnodup l hl
    rw [List.map_cons, List.nodup_cons] at hnd
    rw [← hle, hcons]
    show ((if rrfKey x = key' then 1 / ((60 : ℚ) + ((1 : ℕ) : ℚ)) else 0) ::
      (enumRank 2 xs).map _).sum ≤ 1 / 62
    have hneg : ¬ (rrfKey x = key') := fun h => hne (h ▸ hkx)
    rw [List.sum_cons, if_neg hneg]
    rw [zero_add]
    have := enumRank_contrib_le 60 key' xs 2 (by norm_num) hnd.2
    calc ((enumRank 2 xs).map
        (fun p => if rrfKey p.2 = key' then 1 / ((60 : ℚ) + (p.1 : ℚ)) else 0)).sum
        ≤ 1 / ((60 : ℚ) + (2 : ℕ)) := this
    _ = 1 / 62 := by norm_num
  have hstrict : ∀ key', key' ≠ kX →
      rrfScoreSum 60 rls key' < rrfScoreSum 60 rls kX := by
    intro key' hne
    refine lt_of_le_of_lt (hscoreOther key' hne) ?_
    rw [hscoreX]
    have hmq : (2 : ℚ) ≤ (rls.length : ℚ) := by exact_mod_cast hm
    have hpos : (0 : ℚ) < (rls.length : ℚ) := by linarith
    refine mul_lt_mul_of_pos_left ?_ hpos
    norm_num
  refine ⟨hstrict, ?_⟩
  obtain ⟨l₁, rest, hr⟩ : ∃ l₁ rest, rls = l₁ :: rest := by
    cases rls with
    | nil => cases hm
    | cons a b => exact ⟨a, b, rfl⟩
  obtain ⟨x, xs, hcons, hkx⟩ := hshape l₁ (hr ▸ List.mem_cons_self _ _)
  have hxenum : ((1 : Nat), x) ∈ rrfEnum rls := by
    rw [hr, hcons]
    unfold rrfEnum
    rw [List.flatMap_cons]
    exact List.mem_append_left _ (List.mem_cons_self _ _)
  have hkey : rrfKey x ∈ (rrfItems rls).map (fun q => q.1) :=
    rrfItems_covers rls _ hxenum
  obtain ⟨q, hq, hqk⟩ := List.mem_map.1 hkey
  have hqval : q.1 = rrfKey q.2 := rrfItems_val_key rls q hq
  have hkq2 : rrfKey q.2 = kX := by rw [← hqval, hqk, hkx]
  have hpool : q.2 ∈ (rrfItems rls).map (fun p => p.2) :=
    List.mem_map.2 ⟨q, hq, rfl⟩
  have hhead : (pySortDesc (fun it => assocGet (rrfScores 60 rls) (rrfKey it) 0)
      ((rrfItems rls).map (fun p => p.2))).head? = some q.2 := by
    refine pySortDesc_head_max _ _ q.2 hpool ?_
    intro y hy hne
    obtain ⟨q', hq', hq'e⟩ := List.mem_map.1 hy
    have hq'val : q'.1 = rrfKey q'.2 := rrfItems_val_key rls q' hq'
    have hkne : rrfKey y ≠ kX := by
      intro he
      refine hne ?_
      have : q' = q := nodup_keys_inj _ (rrfItems_keys_nodup rls) q' hq' q hq
        (by rw [hq'val, hq'e, he, ← hkq2, ← hqval, hqval])
      rw [← hq'e, this]
    rw [rrfScores_get, rrfScores_get, hkq2]
    exact hstrict (rrfKey y) hkne
  unfold rrf_fuse
  rw [head?_take k hk _, hhead]
  show some (rrfKey q.2) = some kX
  rw [hkq2]

/-- Fixture items for the RRF witness. -/
def retX : Retrieved := { content := "X", score := 1, meta := [] }

/-- Second fixture item. -/
def retY : Retrieved := { content := "Y", score := 1, meta := [] }

/-- Witness for C4: two lists both rank `retX` first (`retY` is the runner-up
in the first one); the theorem yields a strict score gap and `retX` at rank
1 of the fused output. -/
theorem rrf_first_everywhere_dominates_witness :
    rrfScoreSum 60 [[retX, retY], [retX]] (rrfKey retY) <
      rrfScoreSum 60 [[retX, retY], [retX]] (rrfKey retX) ∧
    (rrf_fuse [[retX, retY], [retX]] 5 60).head?.map rrfKey = some (rrfKey retX) :=
  have h := rrf_first_everywhere_dominates [[retX, retY], [retX]] 5 (rrfKey retX)
    (by decide) (by decide) (by decide) (by decide)
  ⟨h.1 (rrfKey retY) (by decide), h.2⟩

/-! ### C8: BM25 term-frequency monotonicity -/

/-- BM25's length-normalized denominator offset is positive at the source
defaults `k1 = 3/2`, `b = 3/4`. -/
theorem bm25_K_pos {V : Type} (s : Store V) (dl : ℚ) (hdl : 0 ≤ dl) :
    0 < (3/2 : ℚ) * (1 - 3/4 + 3/4 * (dl / max 1 (avgdl s))) := by
  have hmax : (1 : ℚ) ≤ max 1 (avgdl s) := le_max_left _ _
  have hr : 0 ≤ dl / max 1 (avgdl s) := by positivity
  nlinarith

/-- The idf argument is at least 1, so idf is nonnegative for any valid
logarithm model. -/
theorem bm25_idf_nonneg {V : Type} (logf : ℚ → ℚ)
    (hlog : ∀ x, 1 ≤ x → 0 ≤ logf x) (s : Store V) (t : String) :
    0 ≤ logf (1 + (((s.chunks.length : ℚ) - (docFreq s t : ℚ) + 1/2) /
      ((docFreq s t : ℚ) + 1/2))) := by
  refine hlog _ ?_
  have hle : (docFreq s t : ℚ) ≤ (s.chunks.length : ℚ) := by
    exact_mod_cast List.length_filter_le _ _
  have hpos : (0 : ℚ) < (docFreq s t : ℚ) + 1/2 := by positivity
  have hnum : (0 : ℚ) ≤ (s.chunks.length : ℚ) - (docFreq s t : ℚ) + 1/2 := by
    linarith
  have := div_nonneg hnum (le_of_lt hpos)
  linarith

/-- A term's BM25 contribution is nonnegative. -/
theorem bm25_term_nonneg {V : Type} (logf : ℚ → ℚ)
    (hlog : ∀ x, 1 ≤ x → 0 ≤ logf x) (s : Store V) (dl : ℚ) (hdl : 0 ≤ dl)
    (toks : List String) (t : String) :
    0 ≤ bm25_term logf s dl toks (3/2) (3/4) t := by
  simp only [bm25_term]
  by_cases hf : ((termFreq toks t : ℚ)) = 0
  · rw [if_pos hf]
  · rw [if_neg hf]
    have hfpos : (0 : ℚ) ≤ (termFreq toks t : ℚ) := by positivity
    have hK := bm25_K_pos s dl hdl
    have hidf := bm25_idf_nonneg logf hlog s t
    have hden : (0 : ℚ) < (termFreq toks t : ℚ) +
        (3/2) * (1 - 3/4 + 3/4 * (dl / max 1 (avgdl s))) := by linarith
    positivity

set_option maxHeartbeats 1000000 in
/-- A term's BM25 contribution is monotone in the term frequency, at fixed
document length. -/
theorem bm25_term_mono {V : Type} (logf : ℚ → ℚ)
    (hlog : ∀ x, 1 ≤ x → 0 ≤ logf x) (s : Store V) (dl : ℚ) (hdl : 0 ≤ dl)
    (toksA toksB : List String) (t : String)
    (hocc : termFreq toksB t ≤ termFreq toksA t) :
    bm25_term logf s dl toksB (3/2) (3/4) t ≤
      bm25_term logf s dl toksA (3/2) (3/4) t := by
  by_cases hfB : ((termFreq toksB t : ℚ)) = 0
  · have h0 : bm25_term logf s dl toksB (3/2) (3/4) t = 0 := by
      unfold bm25_term
      rw [if_pos hfB]
    rw [h0]
    exact bm25_term_nonneg logf hlog s dl hdl toksA t
  · have hfBpos : (0 : ℚ) < (termFreq toksB t : ℚ) :=
      lt_of_le_of_ne (by positivity) (fun h => hfB h.symm)
    have hfle : ((termFreq toksB t : ℚ)) ≤ ((termFreq toksA t : ℚ)) := by
      exact_mod_cast hocc
    have hfApos : (0 : ℚ) < (termFreq toksA t : ℚ) := lt_of_lt_of_le hfBpos hfle
    have hfA : ¬ ((termFreq toksA t : ℚ)) = 0 := by positivity
    simp only [bm25_term]
    rw [if_neg hfB, if_neg hfA]
    set K := (3/2 : ℚ) * (1 - 3/4 + 3/4 * (dl / max 1 (avgdl s))) with hKdef
    have hK : 0 < K := bm25_K_pos s dl hdl
    set fA := ((termFreq toksA t : ℚ)) with hfAdef
    set fB := ((termFreq toksB t : ℚ)) with hfBdef
    have hidf := bm25_idf_nonneg logf hlog s t
    rw [div_le_div_iff (by linarith) (by linarith)]
    nlinarith [mul_nonneg (mul_nonneg hidf hK.le) (sub_nonneg.2 hfle)]

/-- C8 (amended): for two chunks of identical token length, a chunk
containing at least as many occurrences of every query term receives a BM25
score at least as high for that query (at the source defaults
`k1 = 3/2, b = 3/4` and for any logarithm model nonnegative on `[1, ∞)`, as
`math.log` is); and every `bm25_search` output is sorted by non-increasing
score, so the higher-scored chunk is never ranked strictly below the other.
The original claim, read as "more occurrences of *some* query term", is
false for multi-term queries (see `bm25_single_term_claim_false`). -/
theorem bm25_more_occurrences_scores_higher {V : Type} (logf : ℚ → ℚ)
    (hlog : ∀ x, 1 ≤ x → 0 ≤ logf x) (s : Store V) (cA cB : Chunk V)
    (q : String)
    (hlen : (tokenize cA.text).length = (tokenize cB.text).length)
    (hocc : ∀ t ∈ tokenize q,
      termFreq (tokenize cB.text) t ≤ termFreq (tokenize cA.text) t) :
    bm25_chunk_score logf s cB (tokenize q) (3/2) (3/4) ≤
      bm25_chunk_score logf s cA (tokenize q) (3/2) (3/4) ∧
    ∀ k nsp tA tB,
      (bm25_search logf s q k nsp tA tB (3/2) (3/4)).Pairwise
        (fun p r => r.2 ≤ p.2) := by
  constructor
  · simp only [bm25_chunk_score]
    have hdleq : (if (tokenize cB.text).length = 0 then (1 : ℚ)
        else ((tokenize cB.text).length : ℚ)) =
        (if (tokenize cA.text).length = 0 then (1 : ℚ)
        else ((tokenize cA.text).length : ℚ)) := by
      rw [hlen]
    rw [hdleq]
    set dl := (if (tokenize cA.text).length = 0 then (1 : ℚ)
        else ((tokenize cA.text).length : ℚ)) with hdl
    have hdlnn : 0 ≤ dl := by
      rw [hdl]
      split
      · norm_num
      · positivity
    refine List.sum_le_sum ?_
    intro t ht
    exact bm25_term_mono logf hlog s dl hdlnn _ _ t (hocc t ht)
  · intro k nsp tA tB
    unfold bm25_search
    split
    · exact List.Pairwise.nil
    split
    · exact List.Pairwise.nil
    exact (pySortDesc_sorted _ _).sublist (List.take_sublist _ _)

/-- First counterexample chunk: two occurrences of `t1`, one of `t2`. -/
def chunkA8 : Chunk Unit :=
  { id := "a:0", text := "t1 t1 t2 w w w", meta := default, vec := none }

/-- Second counterexample chunk: one occurrence of `t1`, five of `t2`. -/
def chunkB8 : Chunk Unit :=
  { id := "b:0", text := "t1 t2 t2 t2 t2 t2", meta := default, vec := none }

/-- Counterexample corpus for C8. -/
def storeC8 : Store Unit := { chunks := [chunkA8, chunkB8], docs := [] }

/-- C8 counterexample: with the two equal-length chunks above and the
two-term query `"t1 t2"`, chunk A contains strictly more occurrences of the
query term `t1` than chunk B, yet scores strictly lower, because B's five
occurrences of `t2` outweigh it.  `linLog` is a valid logarithm model
(nonnegative on `[1, ∞)`), so this refutes the claim as stated for every
admissible logarithm in its quantification. -/
theorem bm25_single_term_claim_false :
    (∀ x : ℚ, 1 ≤ x → 0 ≤ linLog x) ∧
    ("t1" ∈ tokenize "t1 t2" ∧
      termFreq (tokenize chunkB8.text) "t1" <
        termFreq (tokenize chunkA8.text) "t1") ∧
    (tokenize chunkA8.text).length = (tokenize chunkB8.text).length ∧
    bm25_chunk_score linLog storeC8 chunkA8 (tokenize "t1 t2") (3/2) (3/4) <
      bm25_chunk_score linLog storeC8 chunkB8 (tokenize "t1 t2") (3/2) (3/4) := by
  refine ⟨?_, ⟨by decide, by decide⟩, by decide, by decide⟩
  intro x hx
  simp only [linLog]
  linarith

/-- Witness for C8: the amended theorem applied to a concrete pair of
equal-length chunks, one containing the query term twice, the other once. -/
theorem bm25_more_occurrences_witness :
    bm25_chunk_score linLog fruitStore
        { id := "w:1", text := "apple banana", meta := default, vec := none }
        (tokenize "apple") (3/2) (3/4) ≤
      bm25_chunk_score linLog fruitStore
        { id := "w:0", text := "apple apple", meta := default, vec := none }
        (tokenize "apple") (3/2) (3/4) ∧
    (bm25_search linLog fruitStore "apple" 2 none none none (3/2) (3/4)).Pairwise
      (fun p r => r.2 ≤ p.2) :=
  have h := bm25_more_occurrences_scores_higher linLog
    (fun x hx => by simp only [linLog]; linarith) fruitStore
    { id := "w:0", text := "apple apple", meta := default, vec := none }
    { id := "w:1", text := "apple banana", meta := default, vec := none }
    "apple" (by decide) (by decide)
  ⟨h.1, h.2 2 none none none⟩

/-! ### MMR selection (`rag_plus.mmr_select`) -/

/-- Python `max(iterable, key=f)`: the first element attaining the maximum
(on ties `max` keeps the earliest element in iteration order). -/
def argmaxPy (f : Nat → ℚ) : List Nat → Option Nat
  | [] => none
  | x :: xs => some (xs.foldl (fun b j => if f b < f j then j else b) x)

/-- Query similarity of candidate `j`: `cos(query_vec, cand_vecs[j])`
(0 for an out-of-range index, which the source never produces). -/
def simToQ {V : Type} (cos : V → V → ℚ) (qv : V) (vecs : List V) (j : Nat) : ℚ :=
  match vecs.get? j with
  | some v => cos qv v
  | none => 0

/-- Pairwise candidate similarity `cos(cand_vecs[i], cand_vecs[j])`. -/
def simPair {V : Type} (cos : V → V → ℚ) (vecs : List V) (i j : Nat) : ℚ :=
  match vecs.get? i, vecs.get? j with
  | some a, some b => cos a b
  | _, _ => 0

/-- The selection loop of `mmr_select`.  The first pick maximizes query
similarity; later picks maximize
`lam * sim_to_q[j] - (1 - lam) * max(0, max over selected of pair sim)`.
The candidate set is iterated in ascending index order (CPython set of
small ints; see the header note), which `List.erase` preserves.  The
source's `while` loop exits only on candidate exhaustion (its guard reads
the never-extended `selected` list), so the loop is run with `fuel`
instantiated to the exact number of candidates: the `fuel = 0` and
`argmaxPy _ [] = none` exits coincide, and neither fires early. -/
def mmr_loop {V : Type} (cos : V → V → ℚ) (qv : V) (vecs : List V) (lam : ℚ) :
    Nat → List Nat → List Nat → List Nat
  | 0, selected, _ => selected
  | fuel + 1, selected, cand =>
    let score : Nat → ℚ :=
      match selected with
      | [] => fun j => simToQ cos qv vecs j
      | _ :: _ => fun j => lam * simToQ cos qv vecs j -
          (1 - lam) * (selected.foldl (fun d i => max d (simPair cos vecs j i)) 0)
    match argmaxPy score cand with
    | none => selected
    | some i => mmr_loop cos qv vecs lam fuel (selected ++ [i]) (cand.erase i)

/-- `rag_plus.mmr_select`, returning the selected texts.  The source
initializes `selected, selected_ix = [], []` but only ever appends to
`selected_ix`, so the loop guard `len(selected) < min(top_k, len(texts))`
compares `0 < min(top_k, len(texts))` on every iteration: if it holds at
all, the loop runs until `cand_set` is exhausted and every candidate is
selected — `top_k` never truncates the selection.  The loop is therefore
entered exactly when `min(top_k, len(texts)) ≠ 0` and run to exhaustion
(fuel `len(texts)`, the exact iteration count). -/
def mmr_select {V : Type} (cos : V → V → ℚ) (qv : V) (vecs : List V)
    (texts : List String) (top_k : Nat) (lam : ℚ) : List String :=
  if texts.length = 0 then []
  else if min top_k texts.length = 0 then []
  else (mmr_loop cos qv vecs lam texts.length []
    (List.range texts.length)).map (fun i => texts.getD i "")

/-- Modelled from the spec: "plain top-k-by-query-similarity" — the
candidates in descending query-similarity order (stable: ties keep the
original candidate order), truncated to `top_k`. -/
def topk_by_query_sim {V : Type} (cos : V → V → ℚ) (qv : V) (vecs : List V)
    (texts : List String) (top_k : Nat) : List String :=
  ((pySortDesc (fun j => simToQ cos qv vecs j)
    (List.range texts.length)).take top_k).map (fun i => texts.getD i "")

/-- The fold inside `argmaxPy` returns the first maximum of an ascending
candidate list. -/
theorem argmaxPy_foldl_spec (f : Nat → ℚ) :
    ∀ (xs : List Nat) (b : Nat), (b :: xs).Pairwise (· < ·) →
    (xs.foldl (fun b j => if f b < f j then j else b) b) ∈ b :: xs ∧
    (∀ j ∈ b :: xs, f j ≤ f (xs.foldl (fun b j => if f b < f j then j else b) b)) ∧
    (∀ j ∈ b :: xs, f j = f (xs.foldl (fun b j => if f b < f j then j else b) b) →
      (xs.foldl (fun b j => if f b < f j then j else b) b) ≤ j) := by
  intro xs
  induction xs with
  | nil =>
    intro b _
    refine ⟨List.mem_cons_self _ _, ?_, ?_⟩
    · intro j hj
      rcases List.mem_cons.1 hj with rfl | hj
      · exact le_rfl
      · cases hj
    · intro j hj _
      rcases List.mem_cons.1 hj with rfl | hj
      · exact le_rfl
      · cases hj
  | cons y ys ih =>
    intro b hasc
    have hby : b < y := (List.pairwise_cons.1 hasc).1 y (List.mem_cons_self _ _)
    have hbys : ∀ z ∈ ys, b < z := fun z hz =>
      (List.pairwise_cons.1 hasc).1 z (List.mem_cons_of_mem _ hz)
    have hyasc : (y :: ys).Pairwise (· < ·) := (List.pairwise_cons.1 hasc).2
    simp only [List.foldl_cons]
    by_cases hcmp : f b < f y
    · rw [if_pos hcmp]
      obtain ⟨hmem, hmax, hfirst⟩ := ih y hyasc
      refine ⟨List.mem_cons_of_mem _ hmem, ?_, ?_⟩
      · intro j hj
        rcases List.mem_cons.1 hj with rfl | hj
        · exact le_trans (le_of_lt hcmp) (hmax y (List.mem_cons_self _ _))
        · exact hmax j hj
      · intro j hj he
        rcases List.mem_cons.1 hj with rfl | hj
        · exfalso
          have hlt := lt_of_lt_of_le hcmp (hmax y (List.mem_cons_self _ _))
          rw [← he] at hlt
          exact lt_irrefl _ hlt
        · exact hfirst j hj he
    · rw [if_neg hcmp]
      have hfyb : f y ≤ f b := not_lt.1 hcmp
      have hbasc : (b :: ys).Pairwise (· < ·) :=
        List.pairwise_cons.2 ⟨hbys, (List.pairwise_cons.1 hyasc).2⟩
      obtain ⟨hmem, hmax, hfirst⟩ := ih b hbasc
      refine ⟨?_, ?_, ?_⟩
      · rcases List.mem_cons.1 hmem with hm | hm
        · rw [hm]
          exact List.mem_cons_self _ _
        · exact List.mem_cons_of_mem _ (List.mem_cons_of_mem _ hm)
      · intro j hj
        rcases List.mem_cons.1 hj with rfl | hj
        · exact hmax j (List.mem_cons_self _ _)
        rcases List.mem_cons.1 hj with rfl | hj
        · exact le_trans hfyb (hmax b (List.mem_cons_self _ _))
        · exact hmax j (List.mem_cons_of_mem _ hj)
      · intro j hj he
        rcases List.mem_cons.1 hj with rfl | hj
        · exact hfirst j (List.mem_cons_self _ _) he
        rcases List.mem_cons.1 hj with rfl | hj
        · rcases List.mem_cons.1 hmem with hm | hm
          · rw [hm]
            exact le_of_lt hby
          · exfalso
            have hfb : f b ≤ f (ys.foldl (fun b j => if f b < f j then j else b) b) :=
              hmax b (List.mem_cons_self _ _)
            have hfb2 : f (ys.foldl (fun b j => if f b < f j then j else b) b) ≤ f b := by
              rw [← he]
              exact hfyb
            have hrb := hfirst b (List.mem_cons_self _ _) (le_antisymm hfb hfb2)
            exact absurd (hbys _ hm) (not_lt.2 hrb)
        · exact hfirst j (List.mem_cons_of_mem _ hj) he

/-- `argmaxPy` on a non-empty ascending list returns its first maximum. -/
theorem argmaxPy_spec (f : Nat → ℚ) (cand : List Nat)
    (hne : cand ≠ []) (hasc : cand.Pairwise (· < ·)) :
    ∃ m, argmaxPy f cand = some m ∧ m ∈ cand ∧
      (∀ j ∈ cand, f j ≤ f m) ∧ (∀ j ∈ cand, f j = f m → m ≤ j) := by
  cases cand with
  | nil => exact absurd rfl hne
  | cons b xs =>
    obtain ⟨hmem, hmax, hfirst⟩ := argmaxPy_foldl_spec f xs b hasc
    exact ⟨_, rfl, hmem, hmax, hfirst⟩

/-- Pure iterated argmax selection (the shape `mmr_loop` takes at
`lam = 1`). -/
def iterSel (f : Nat → ℚ) : Nat → List Nat → List Nat
  | 0, _ => []
  | fuel + 1, cand =>
    match argmaxPy f cand with
    | none => []
    | some i => i :: iterSel f fuel (cand.erase i)

/-- At `lam = 1` the MMR score function collapses to the query similarity,
so the loop is iterated argmax selection. -/
theorem mmr_loop_one {V : Type} (cos : V → V → ℚ) (qv : V) (vecs : List V) :
    ∀ (fuel : Nat) (selected cand : List Nat),
    mmr_loop cos qv vecs 1 fuel selected cand =
      selected ++ iterSel (fun j => simToQ cos qv vecs j) fuel cand := by
  intro fuel
  induction fuel with
  | zero => intro selected cand; simp [mmr_loop, iterSel]
  | succ fuel ih =>
    intro selected cand
    simp only [mmr_loop]
    cases selected with
    | nil =>
      cases hmax : argmaxPy (fun j => simToQ cos qv vecs j) cand with
      | none =>
        have hit : iterSel (fun j => simToQ cos qv vecs j) (fuel + 1) cand = [] := by
          conv_lhs => rw [iterSel]
          rw [hmax]
        rw [hit]
        rfl
      | some i =>
        have hit : iterSel (fun j => simToQ cos qv vecs j) (fuel + 1) cand =
            i :: iterSel (fun j => simToQ cos qv vecs j) fuel (cand.erase i) := by
          conv_lhs => rw [iterSel]
          rw [hmax]
        rw [hit]
        show mmr_loop cos qv vecs 1 fuel ([] ++ [i]) (cand.erase i) =
          [] ++ i :: iterSel (fun j => simToQ cos qv vecs j) fuel (cand.erase i)
        rw [ih]
        rfl
    | cons a as =>
      have hfun : (fun j => (1 : ℚ) * simToQ cos qv vecs j -
          (1 - 1) * ((a :: as).foldl (fun d i => max d (simPair cos vecs j i)) 0)) =
          fun j => simToQ cos qv vecs j := by
        funext j
        ring
      rw [hfun]
      cases hmax : argmaxPy (fun j => simToQ cos qv vecs j) cand with
      | none =>
        have hit : iterSel (fun j => simToQ cos qv vecs j) (fuel + 1) cand = [] := by
          conv_lhs => rw [iterSel]
          rw [hmax]
        rw [hit, List.append_nil]
      | some i =>
        have hit : iterSel (fun j => simToQ cos qv vecs j) (fuel + 1) cand =
            i :: iterSel (fun j => simToQ cos qv vecs j) fuel (cand.erase i) := by
          conv_lhs => rw [iterSel]
          rw [hmax]
        rw [hit]
        show mmr_loop cos qv vecs 1 fuel ((a :: as) ++ [i]) (cand.erase i) =
          (a :: as) ++ i :: iterSel (fun j => simToQ cos qv vecs j) fuel (cand.erase i)
        rw [ih, List.append_assoc]
        rfl

/-- Extracting the first maximum commutes with the stable descending sort. -/
theorem pySortDesc_cons_argmax (f : Nat → ℚ) (cand : List Nat) (m : Nat)
    (hasc : cand.Pairwise (· < ·)) (hmax : argmaxPy f cand = some m) :
    pySortDesc f cand = m :: pySortDesc f (cand.erase m) := by
  have hne : cand ≠ [] := by
    intro h
    rw [h] at hmax
    cases hmax
  obtain ⟨m', hm', hmem, hub, hfirst⟩ := argmaxPy_spec f cand hne hasc
  have hmm : m' = m := by
    rw [hm'] at hmax
    injection hmax
  rw [hmm] at hmem hub hfirst
  have hnd : cand.Nodup := hasc.imp (fun h => Nat.ne_of_lt h)
  have hasc' : (cand.erase m).Pairwise (· < ·) :=
    hasc.sublist (List.erase_sublist m cand)
  have hperm : List.Perm (pySortDesc f cand) (m :: pySortDesc f (cand.erase m)) := by
    refine ((pySortDesc_perm f cand).trans (List.perm_cons_erase hmem)).trans ?_
    exact List.Perm.cons m (pySortDesc_perm f (cand.erase m)).symm
  have hS1 : (pySortDesc f cand).Pairwise (keyTagRel f (fun i => i)) :=
    pySortDesc_keyTagRel f (fun i => i) cand hasc
  have hS2 : (m :: pySortDesc f (cand.erase m)).Pairwise (keyTagRel f (fun i => i)) := by
    refine List.pairwise_cons.2 ⟨?_, pySortDesc_keyTagRel f (fun i => i) _ hasc'⟩
    intro y hy
    have hyer : y ∈ cand.erase m := (pySortDesc_perm f _).mem_iff.1 hy
    have hym : y ≠ m := ((List.Nodup.mem_erase_iff hnd).1 hyer).1
    have hyc : y ∈ cand := ((List.Nodup.mem_erase_iff hnd).1 hyer).2
    rcases lt_or_eq_of_le (hub y hyc) with hlt | heq
    · exact Or.inl hlt
    · exact Or.inr ⟨heq.symm, lt_of_le_of_ne (hfirst y hyc heq) (fun h => hym h.symm)⟩
  exact perm_pairwise_eq _ (keyTagRel_antisymm f (fun i => i)) hperm hS1 hS2

/-- Iterated argmax selection on an ascending candidate list is the
truncated stable descending sort. -/
theorem iterSel_eq_sort (f : Nat → ℚ) :
    ∀ (n : Nat) (cand : List Nat), cand.Pairwise (· < ·) →
    iterSel f n cand = (pySortDesc f cand).take n := by
  intro n
  induction n with
  | zero => intro cand _; rfl
  | succ n ih =>
    intro cand hasc
    cases cand with
    | nil => rfl
    | cons b xs =>
      have hne : (b :: xs) ≠ [] := List.cons_ne_nil _ _
      obtain ⟨m, hm, hmem, hub, hfirst⟩ := argmaxPy_spec f (b :: xs) hne hasc
      have hstep : iterSel f (n + 1) (b :: xs) = m :: iterSel f n ((b :: xs).erase m) := by
        conv_lhs => rw [iterSel]
        rw [hm]
      rw [hstep, pySortDesc_cons_argmax f (b :: xs) m hasc hm, List.take_succ_cons]
      rw [ih _ (hasc.sublist (List.erase_sublist m _))]

/-- C9 (actual behavior of the code): with `lambda = 1` the selection is the
plain stable descending sort of ALL candidates by query similarity — the
spec's top-k-by-query-similarity list evaluated at `top_k = len(texts)`, not
at the requested `top_k` — because the loop guard reads the never-extended
`selected` list and therefore never truncates; with `top_k = 0` or no
candidates the result is empty.  When at least one candidate is requested,
every candidate is returned and the first selected candidate has maximal
query similarity.  Holds for every cosine model and embedding assignment. -/
theorem mmr_select_lambda_one {V : Type} (cos : V → V → ℚ) (qv : V)
    (vecs : List V) (texts : List String) (top_k : Nat) :
    mmr_select cos qv vecs texts top_k 1 =
      (if min top_k texts.length = 0 then []
       else topk_by_query_sim cos qv vecs texts texts.length) ∧
    (texts ≠ [] → 1 ≤ top_k →
      (mmr_select cos qv vecs texts top_k 1).length = texts.length ∧
      ∃ i, i < texts.length ∧
        (mmr_select cos qv vecs texts top_k 1).head? = some (texts.getD i "") ∧
        ∀ j, j < texts.length →
          simToQ cos qv vecs j ≤ simToQ cos qv vecs i) := by
  have hasc : (List.range texts.length).Pairwise (· < ·) :=
    List.pairwise_lt_range _
  have hmain : mmr_select cos qv vecs texts top_k 1 =
      (if min top_k texts.length = 0 then []
       else topk_by_query_sim cos qv vecs texts texts.length) := by
    unfold mmr_select
    by_cases hlen : texts.length = 0
    · rw [if_pos hlen]
      rw [if_pos (show min top_k texts.length = 0 by rw [hlen]; exact Nat.min_zero top_k)]
    · rw [if_neg hlen]
      by_cases hk0 : min top_k texts.length = 0
      · rw [if_pos hk0, if_pos hk0]
      · rw [if_neg hk0, if_neg hk0]
        unfold topk_by_query_sim
        rw [mmr_loop_one, iterSel_eq_sort _ _ _ hasc, List.nil_append]
  refine ⟨hmain, ?_⟩
  intro hne hk
  have hlen : texts.length ≠ 0 := fun h => hne (List.length_eq_zero.1 h)
  have hmin : min top_k texts.length ≠ 0 := by omega
  have hsel : mmr_select cos qv vecs texts top_k 1 =
      topk_by_query_sim cos qv vecs texts texts.length := by
    rw [hmain, if_neg hmin]
  have hlenL : (pySortDesc (fun j => simToQ cos qv vecs j)
      (List.range texts.length)).length = texts.length := by
    rw [(pySortDesc_perm _ _).length_eq, List.length_range]
  refine ⟨?_, ?_⟩
  · rw [hsel]
    unfold topk_by_query_sim
    rw [List.length_map, List.length_take, hlenL]
    exact Nat.min_self _
  · cases hLc : pySortDesc (fun j => simToQ cos qv vecs j)
        (List.range texts.length) with
    | nil =>
      exfalso
      rw [hLc] at hlenL
      exact hlen hlenL.symm
    | cons i t =>
      have hiL : i ∈ pySortDesc (fun j => simToQ cos qv vecs j)
          (List.range texts.length) := by
        rw [hLc]
        exact List.mem_cons_self _ _
      have hirange : i ∈ List.range texts.length :=
        (pySortDesc_perm _ _).mem_iff.1 hiL
      have hilt : i < texts.length := List.mem_range.1 hirange
      refine ⟨i, hilt, ?_, ?_⟩
      · rw [hsel]
        unfold topk_by_query_sim
        rw [hLc, List.head?_map, head?_take texts.length (Nat.pos_of_ne_zero hlen)]
        rfl
      · intro j hj
        have hjL : j ∈ pySortDesc (fun j => simToQ cos qv vecs j)
            (List.range texts.length) :=
          (pySortDesc_perm _ _).mem_iff.2 (List.mem_range.2 hj)
        rw [hLc] at hjL
        rcases List.mem_cons.1 hjL with rfl | hjt
        · exact le_rfl
        · have hsort := pySortDesc_sorted (fun j => simToQ cos qv vecs j)
            (List.range texts.length)
          rw [hLc] at hsort
          exact (List.pairwise_cons.1 hsort).1 j hjt

/-- Rational multiplication as a concrete similarity model for the MMR
witness. -/
def ratCos : ℚ → ℚ → ℚ := fun a b => a * b

/-- C9 (counterexample to the claimed truncation): with three candidates of
query similarities `1, 3, 2` and `top_k = 2`, `mmr_select` at `lambda = 1`
returns all three texts in descending-similarity order, not the two-element
top-k-by-query-similarity list: the loop guard compares the never-extended
`selected` list against `min(top_k, len(texts))`, so `top_k` is ignored. -/
theorem mmr_select_not_topk :
    ¬ (mmr_select ratCos (1 : ℚ) [(1 : ℚ), 3, 2] ["a", "b", "c"] 2 1 =
       topk_by_query_sim ratCos (1 : ℚ) [(1 : ℚ), 3, 2] ["a", "b", "c"] 2) := by
  decide

/-- Witness for C9: three candidates with query similarities `1, 3, 2` and
`top_k = 2`; `mmr_select` at `lambda = 1` returns all three candidates in
descending-similarity order and the first pick is the similarity-3
candidate. -/
theorem mmr_select_lambda_one_witness :
    mmr_select ratCos (1 : ℚ) [(1 : ℚ), 3, 2] ["a", "b", "c"] 2 1 =
      (if min 2 3 = 0 then []
       else topk_by_query_sim ratCos (1 : ℚ) [(1 : ℚ), 3, 2] ["a", "b", "c"] 3) ∧
    ((mmr_select ratCos (1 : ℚ) [(1 : ℚ), 3, 2] ["a", "b", "c"] 2 1).length = 3 ∧
      ∃ i, i < 3 ∧
        (mmr_select ratCos (1 : ℚ) [(1 : ℚ), 3, 2] ["a", "b", "c"] 2 1).head? =
          some (["a", "b", "c"].getD i "") ∧
        ∀ j, j < 3 →
          simToQ ratCos (1 : ℚ) [(1 : ℚ), 3, 2] j ≤
            simToQ ratCos (1 : ℚ) [(1 : ℚ), 3, 2] i) :=
  have h := mmr_select_lambda_one ratCos (1 : ℚ) [(1 : ℚ), 3, 2]
    ["a", "b", "c"] 2
  ⟨h.1, h.2 (by decide) (by decide)⟩

/-! ### C3: alpha-blend reduction to the single rankers -/

/-- A `min`-fold only decreases its accumulator. -/
theorem foldl_min_le_init : ∀ (xs : List ℚ) (acc : ℚ), xs.foldl min acc ≤ acc := by
  intro xs
  induction xs with
  | nil => intro acc; exact le_rfl
  | cons y ys ih =>
    intro acc
    exact le_trans (ih (min acc y)) (min_le_left _ _)

/-- A `max`-fold only increases its accumulator. -/
theorem le_foldl_max_init : ∀ (xs : List ℚ) (acc : ℚ), acc ≤ xs.foldl max acc := by
  intro xs
  induction xs with
  | nil => intro acc; exact le_rfl
  | cons y ys ih =>
    intro acc
    exact le_trans (le_max_left _ _) (ih (max acc y))

/-- On a non-empty list the minimum is at most the maximum. -/
theorem listMin_le_listMax (l : List ℚ) (h : l ≠ []) : listMin l ≤ listMax l := by
  cases l with
  | nil => exact absurd rfl h
  | cons x xs =>
    exact le_trans (foldl_min_le_init xs x) (le_foldl_max_init xs x)

/-- The `rng = (mx - mn) or 1.0` denominator is positive on non-empty
score lists. -/
theorem normRng_pos (l : List ℚ) (h : l ≠ []) :
    0 < (if listMax l - listMin l = 0 then 1 else listMax l - listMin l) := by
  by_cases hz : listMax l - listMin l = 0
  · rw [if_pos hz]
    norm_num
  · rw [if_neg hz]
    have := listMin_le_listMax l h
    have hge : 0 ≤ listMax l - listMin l := by linarith
    exact lt_of_le_of_ne hge (fun he => hz he.symm)

/-- On a ranked list with distinct ids, `normScore` at a member id is the
min-max normalization of that member's score. -/
theorem normScore_of_mem (lst : List (Nat × ℚ)) (p : Nat × ℚ)
    (hnd : (lst.map (fun x => x.1)).Nodup) (hp : p ∈ lst) :
    normScore lst p.1 =
      (p.2 - listMin (lst.map (fun x => x.2))) /
        (if listMax (lst.map (fun x => x.2)) - listMin (lst.map (fun x => x.2)) = 0
         then 1 else listMax (lst.map (fun x => x.2)) - listMin (lst.map (fun x => x.2))) := by
  unfold normScore
  cases hfind : lst.reverse.find? (fun q => q.1 = p.1) with
  | none =>
    exfalso
    have := List.find?_eq_none.1 hfind p (List.mem_reverse.2 hp)
    simp at this
  | some q =>
    have hq1 : q.1 = p.1 := by
      have := List.find?_some hfind
      simpa using this
    have hqmem : q ∈ lst := List.mem_reverse.1 (List.mem_of_find?_eq_some hfind)
    have hqp : q = p := List.inj_on_of_nodup_map hnd hqmem hp hq1
    rw [hqp]

/-- Two filters commute. -/
theorem filter_swap (a b : Nat → Bool) (l : List Nat) :
    (l.filter a).filter b = (l.filter b).filter a := by
  rw [List.filter_filter, List.filter_filter]
  refine List.filter_congr ?_
  intro z _
  exact Bool.and_comm _ _

/-- First-occurrence dedup commutes with filtering. -/
theorem dedupFirst_filter (p : Nat → Bool) :
    ∀ (l : List Nat), dedupFirst (l.filter p) = (dedupFirst l).filter p := by
  intro l
  induction l with
  | nil => rfl
  | cons y ys ih =>
    have hterm : dedupFirst (y :: ys) =
        y :: (dedupFirst ys).filter (fun z => z ≠ y) := rfl
    by_cases hy : p y
    · rw [List.filter_cons_of_pos hy]
      show y :: (dedupFirst (ys.filter p)).filter (fun z => z ≠ y) = _
      rw [ih, hterm, List.filter_cons_of_pos hy]
      rw [filter_swap]
    · rw [List.filter_cons_of_neg hy, ih, hterm, List.filter_cons_of_neg hy]
      rw [filter_swap]
      refine (List.filter_eq_self.2 ?_).symm
      intro z hz
      have hzp : p z = true := List.of_mem_filter hz
      have : z ≠ y := by
        intro he
        rw [he] at hzp
        exact hy hzp
      simpa using this

/-- Deduplicating `a ++ b` returns `a` when `a` has no duplicates and `b`
only repeats members of `a`. -/
theorem dedupFirst_append_subset :
    ∀ (a b : List Nat), a.Nodup → (∀ y ∈ b, y ∈ a) → dedupFirst (a ++ b) = a := by
  intro a
  induction a with
  | nil =>
    intro b _ hsub
    cases b with
    | nil => rfl
    | cons z zs => exact absurd (hsub z (List.mem_cons_self _ _)) (List.not_mem_nil z)
  | cons x a' ih =>
    intro b hnd hsub
    rw [List.nodup_cons] at hnd
    show x :: (dedupFirst (a' ++ b)).filter (fun z => z ≠ x) = x :: a'
    congr 1
    rw [← dedupFirst_filter, List.filter_append]
    have ha' : a'.filter (fun z => z ≠ x) = a' := by
      refine List.filter_eq_self.2 ?_
      intro z hz
      have : z ≠ x := fun he => hnd.1 (he ▸ hz)
      simpa using this
    rw [ha']
    refine ih (b.filter (fun z => z ≠ x)) hnd.2 ?_
    intro y hy
    have hyb : y ∈ b := List.mem_of_mem_filter hy
    have hyx : (y ≠ x : Prop) := by
      have := List.of_mem_filter hy
      simpa using this
    rcases List.mem_cons.1 (hsub y hyb) with he | hmem
    · exact absurd he hyx
    · exact hmem

/-- Ids of the mask (and hence of the per-ranker lists) are distinct. -/
theorem searchMask_ids_nodup {V : Type} (s : Store V) (nsp : Option String)
    (tA tB : Option (List String)) :
    ((searchMask s nsp tA tB).map (fun p => p.1)).Nodup := by
  unfold searchMask
  have hsub : ((s.chunks.enum.filter
      (fun p => match_filters p.2 nsp tA tB)).map (fun p => p.1)).Sublist
      (s.chunks.enum.map (fun p => p.1)) :=
    (List.filter_sublist _).map _
  refine hsub.nodup ?_
  have henum : s.chunks.enum.map (fun p => p.1) = List.range s.chunks.length := by
    rw [show (fun p : Nat × Chunk V => p.1) = Prod.fst from rfl, List.enum_map_fst]
  rw [henum]
  exact List.nodup_range _

/-- Monotone normalization keeps a strictly descending ranked list strictly
descending. -/
theorem pairwise_strict_norm (lst : List (Nat × ℚ)) (mn rng : ℚ)
    (hrng : 0 < rng)
    (hs : lst.Pairwise (fun a b => b.2 < a.2)) :
    (lst.map (fun p => (p.1, (p.2 - mn) / rng))).Pairwise
      (fun a b => b.2 < a.2) := by
  rw [List.pairwise_map]
  refine hs.imp ?_
  intro a b hab
  show (b.2 - mn) / rng < (a.2 - mn) / rng
  exact div_lt_div_of_pos_right (by linarith) hrng

/-- Core of the alpha-endpoint argument: blending that copies the
normalized scores of a single ranked list `D` (with distinct ids and
distinct scores) over an id pool that permutes `D`'s ids reproduces `D`'s
ranking order. -/
theorem norm_rank_core (keysSrc D : List (Nat × ℚ))
    (hperm : List.Perm (keysSrc.map (fun p => p.1)) (D.map (fun p => p.1)))
    (hsorted : D.Pairwise (fun a b => b.2 ≤ a.2))
    (hnd_ids : (D.map (fun p => p.1)).Nodup)
    (hnd_scores : (D.map (fun p => p.2)).Nodup)
    (hne : D ≠ []) (k : Nat) :
    ((pySortDesc (fun p => p.2) ((keysSrc.map (fun p => p.1)).map
      (fun i => (i, normScore D i)))).take k).map (fun p => p.1) =
    (D.take k).map (fun p => p.1) := by
  have hmapne : D.map (fun p => p.2) ≠ [] := by
    intro h
    exact hne (List.map_eq_nil.1 h)
  have hrng := normRng_pos (D.map (fun p => p.2)) hmapne
  set mn := listMin (D.map (fun p => p.2)) with hmn
  set rng := (if listMax (D.map (fun p => p.2)) - listMin (D.map (fun p => p.2)) = 0
    then 1 else listMax (D.map (fun p => p.2)) - listMin (D.map (fun p => p.2))) with hrngdef
  have htarget : D.map (fun p => (p.1, normScore D p.1)) =
      D.map (fun p => (p.1, (p.2 - mn) / rng)) := by
    refine List.map_congr_left ?_
    intro p hp
    rw [normScore_of_mem D p hnd_ids hp]
  have hfperm : List.Perm ((keysSrc.map (fun p => p.1)).map
      (fun i => (i, normScore D i))) (D.map (fun p => (p.1, normScore D p.1))) := by
    have h1 := hperm.map (fun i => (i, normScore D i))
    have h2 : (D.map (fun p => p.1)).map (fun i => (i, normScore D i)) =
        D.map (fun p => (p.1, normScore D p.1)) := by
      rw [List.map_map]
      rfl
    rw [h2] at h1
    exact h1
  have hstrictD : D.Pairwise (fun a b => b.2 < a.2) :=
    pairwise_strict_of_nodup (fun p => p.2) D hsorted hnd_scores
  have hstrictT : (D.map (fun p => (p.1, (p.2 - mn) / rng))).Pairwise
      (fun a b => b.2 < a.2) := pairwise_strict_norm D mn rng hrng hstrictD
  have hsortF := pySortDesc_sorted (fun p => p.2)
    ((keysSrc.map (fun p => p.1)).map (fun i => (i, normScore D i)))
  have hpermF : List.Perm (pySortDesc (fun p => p.2)
      ((keysSrc.map (fun p => p.1)).map (fun i => (i, normScore D i))))
      (D.map (fun p => (p.1, (p.2 - mn) / rng))) :=
    ((pySortDesc_perm _ _).trans hfperm).trans (by rw [htarget])
  have hinj : Function.Injective (fun x : ℚ => (x - mn) / rng) := by
    intro x y h
    rw [div_eq_div_iff (ne_of_gt hrng) (ne_of_gt hrng)] at h
    have := mul_right_cancel₀ (ne_of_gt hrng) h
    linarith
  have hndT : ((D.map (fun p => (p.1, (p.2 - mn) / rng))).map
      (fun p => p.2)).Nodup := by
    have hmm : (D.map (fun p => (p.1, (p.2 - mn) / rng))).map (fun p => p.2) =
        (D.map (fun p => p.2)).map (fun x => (x - mn) / rng) := by
      simp only [List.map_map]
      rfl
    rw [hmm]
    exact hnd_scores.map hinj
  have hndF : ((pySortDesc (fun p => p.2)
      ((keysSrc.map (fun p => p.1)).map (fun i => (i, normScore D i)))).map
      (fun p => p.2)).Nodup := by
    have hx : List.Perm ((pySortDesc (fun p => p.2)
        ((keysSrc.map (fun p => p.1)).map (fun i => (i, normScore D i)))).map
        (fun p => p.2))
        ((D.map (fun p => (p.1, (p.2 - mn) / rng))).map (fun p => p.2)) :=
      List.Perm.map _ hpermF
    exact (List.Perm.nodup_iff hx).2 hndT
  have hstrictF := pairwise_strict_of_nodup (fun p : Nat × ℚ => p.2) _ hsortF hndF
  have heq : pySortDesc (fun p => p.2)
      ((keysSrc.map (fun p => p.1)).map (fun i => (i, normScore D i))) =
      D.map (fun p => (p.1, (p.2 - mn) / rng)) := by
    refine perm_pairwise_eq (fun a b => b.2 < a.2) ?_ hpermF hstrictF hstrictT
    intro a b hab hba
    exact absurd (lt_trans hab hba) (lt_irrefl _)
  rw [heq]
  simp only [List.map_take, List.map_map]
  rfl

/-- The ids of the semantic similarity list are exactly the masked ids, in
mask order. -/
theorem semSims_ids {V : Type} (e : EmbedModel V) (s : Store V) (q : String)
    (nsp : Option String) (tA tB : Option (List String)) :
    (semSims e s q nsp tA tB).map (fun p => p.1) =
      (searchMask s nsp tA tB).map (fun p => p.1) := by
  unfold semSims
  rw [List.map_map]
  rfl

/-- Every id of a lexical result is a masked id. -/
theorem bm25_search_ids_sub_mask {V : Type} (logf : ℚ → ℚ) (s : Store V)
    (q : String) (k : Nat) (nsp : Option String) (tA tB : Option (List String))
    (k1 b : ℚ) :
    ∀ y ∈ (bm25_search logf s q k nsp tA tB k1 b).map (fun p => p.1),
      y ∈ (searchMask s nsp tA tB).map (fun p => p.1) := by
  intro y hy
  obtain ⟨pr, hpr, hy⟩ := List.mem_map.1 hy
  subst hy
  unfold bm25_search at hpr
  split at hpr
  · cases hpr
  split at hpr
  · cases hpr
  have hmem : pr ∈ bm25Scores logf s q nsp tA tB k1 b :=
    ((List.perm_insertionSort _ _).mem_iff).1 (List.mem_of_mem_take hpr)
  obtain ⟨p, hp, he⟩ := List.mem_map.1 (List.mem_of_mem_filter hmem)
  subst he
  exact List.mem_map.2 ⟨p, hp, rfl⟩

/-- C3 (amended): the alpha endpoints of `hybrid_search` reduce to the single
rankers under the provisos of the analysis: the internal rankings are both
computed at `max(top_k, 20)`, so the filter-passing pool must fit into them
(at most 20 masked chunks); the ranking-defining scores must be pairwise
distinct (ties are otherwise broken by pool iteration order, not by the
single ranker's order); and for `alpha = 0` every masked chunk must carry a
positive BM25 score, since zero-scored chunks are dropped from the lexical
list but stay in the hybrid id pool. Under these conditions `alpha = 1`
returns exactly the semantic-only ranking order and `alpha = 0` returns
exactly the lexical-only ranking order. -/
theorem hybrid_alpha_endpoints {V : Type} (e : EmbedModel V) (logf : ℚ → ℚ)
    (s : Store V) (q : String) (top_k : Nat) (nsp : Option String)
    (tA tB : Option (List String))
    (hmask : (searchMask s nsp tA tB).length ≤ 20) :
    (((semSims e s q nsp tA tB).map (fun p => p.2)).Nodup →
      (hybrid_search e logf s q top_k 1 nsp tA tB).map (fun p => p.1) =
        (semantic_search e s q top_k nsp tA tB).map (fun p => p.1)) ∧
    ((∀ p ∈ searchMask s nsp tA tB,
        0 < bm25_chunk_score logf s p.2 (tokenize q) (3/2) (3/4)) →
      ((bm25Scores logf s q nsp tA tB (3/2) (3/4)).map (fun p => p.2)).Nodup →
      (hybrid_search e logf s q top_k 0 nsp tA tB).map (fun p => p.1) =
        (bm25_search logf s q top_k nsp tA tB (3/2) (3/4)).map (fun p => p.1)) := by
  by_cases hm : searchMask s nsp tA tB = []
  · have hsem0 : ∀ k, semantic_search e s q k nsp tA tB = [] := by
      intro k
      unfold semantic_search
      by_cases hc : s.chunks.isEmpty = true
      · rw [if_pos hc]
      · rw [if_neg hc,
          if_pos (show (searchMask s nsp tA tB).isEmpty = true by rw [hm]; rfl)]
    have hbm0 : ∀ k, bm25_search logf s q k nsp tA tB (3/2) (3/4) = [] := by
      intro k
      unfold bm25_search
      by_cases hc : s.chunks.isEmpty = true
      · rw [if_pos hc]
      · rw [if_neg hc,
          if_pos (show (searchMask s nsp tA tB).isEmpty = true by rw [hm]; rfl)]
    have hhyb : ∀ a : ℚ, hybrid_search e logf s q top_k a nsp tA tB = [] := by
      intro a
      show (pySortDesc (fun p => p.2)
          ((keyUnion (semantic_search e s q (max top_k 20) nsp tA tB)
              (bm25_search logf s q (max top_k 20) nsp tA tB (3/2) (3/4))).map
            (fun i => (i, a * normScore (semantic_search e s q (max top_k 20) nsp tA tB) i +
              (1 - a) * normScore (bm25_search logf s q (max top_k 20) nsp tA tB (3/2)
                (3/4)) i)))).take top_k = []
      rw [hsem0, hbm0]
      simp [keyUnion, dedupFirst, pySortDesc, List.insertionSort]
    constructor
    · intro _
      rw [hhyb 1, hsem0 top_k]
    · intro _ _
      rw [hhyb 0, hbm0 top_k]
  · have hchunksemp : s.chunks.isEmpty = false := by
      cases hx : s.chunks with
      | nil =>
        exact absurd (show searchMask s nsp tA tB = [] by
          unfold searchMask; rw [hx]; rfl) hm
      | cons a l => rfl
    have hmaskemp : (searchMask s nsp tA tB).isEmpty = false := by
      cases hx : searchMask s nsp tA tB with
      | nil => exact absurd hx hm
      | cons a l => rfl
    have hcneg : ¬ (s.chunks.isEmpty = true) := by
      rw [hchunksemp]; exact Bool.false_ne_true
    have hmneg : ¬ ((searchMask s nsp tA tB).isEmpty = true) := by
      rw [hmaskemp]; exact Bool.false_ne_true
    have hsemne : semSims e s q nsp tA tB ≠ [] := by
      intro h
      apply hm
      unfold semSims at h
      exact List.eq_nil_of_map_eq_nil h
    have hsortlen : (pySortDesc (fun p => p.2) (semSims e s q nsp tA tB)).length =
        (searchMask s nsp tA tB).length := by
      rw [(pySortDesc_perm (fun p => p.2) (semSims e s q nsp tA tB)).length_eq]
      unfold semSims
      exact List.length_map _ _
    have hsemfull : semantic_search e s q (max top_k 20) nsp tA tB =
        pySortDesc (fun p => p.2) (semSims e s q nsp tA tB) := by
      unfold semantic_search
      rw [if_neg hcneg, if_neg hmneg]
      refine List.take_of_length_le ?_
      rw [hsortlen]
      exact le_trans hmask (le_max_right top_k 20)
    have hsemtop : semantic_search e s q top_k nsp tA tB =
        (pySortDesc (fun p => p.2) (semSims e s q nsp tA tB)).take top_k := by
      unfold semantic_search
      rw [if_neg hcneg, if_neg hmneg]
    have hDperm := pySortDesc_perm (fun p => p.2) (semSims e s q nsp tA tB)
    have hD_ids_perm : List.Perm
        ((pySortDesc (fun p => p.2) (semSims e s q nsp tA tB)).map (fun p => p.1))
        ((searchMask s nsp tA tB).map (fun p => p.1)) := by
      rw [← semSims_ids e s q nsp tA tB]
      exact List.Perm.map (fun p : Nat × ℚ => p.1) hDperm
    have hD_ids_nodup :
        ((pySortDesc (fun p => p.2) (semSims e s q nsp tA tB)).map
          (fun p => p.1)).Nodup :=
      (hD_ids_perm.nodup_iff).2 (searchMask_ids_nodup s nsp tA tB)
    have hD_ne : pySortDesc (fun p => p.2) (semSims e s q nsp tA tB) ≠ [] := by
      intro h
      apply hsemne
      have hlen := hDperm.length_eq
      rw [h] at hlen
      exact List.length_eq_zero.1 hlen.symm
    have hbm_sub : ∀ y ∈ (bm25_search logf s q (max top_k 20) nsp tA tB
        (3/2) (3/4)).map (fun p => p.1),
        y ∈ (pySortDesc (fun p => p.2) (semSims e s q nsp tA tB)).map
          (fun p => p.1) := by
      intro y hy
      exact (hD_ids_perm.mem_iff).2
        (bm25_search_ids_sub_mask logf s q (max top_k 20) nsp tA tB (3/2) (3/4) y hy)
    have hkeys : keyUnion (pySortDesc (fun p => p.2) (semSims e s q nsp tA tB))
        (bm25_search logf s q (max top_k 20) nsp tA tB (3/2) (3/4)) =
        (pySortDesc (fun p => p.2) (semSims e s q nsp tA tB)).map (fun p => p.1) := by
      unfold keyUnion
      exact dedupFirst_append_subset _ _ hD_ids_nodup hbm_sub
    constructor
    · intro hnds
      have hD_scores_nodup :
          ((pySortDesc (fun p => p.2) (semSims e s q nsp tA tB)).map
            (fun p => p.2)).Nodup :=
        ((List.Perm.map (fun p : Nat × ℚ => p.2) hDperm).nodup_iff).2 hnds
      show ((pySortDesc (fun p => p.2)
          ((keyUnion (semantic_search e s q (max top_k 20) nsp tA tB)
              (bm25_search logf s q (max top_k 20) nsp tA tB (3/2) (3/4))).map
            (fun i => (i, 1 * normScore (semantic_search e s q (max top_k 20) nsp tA tB) i +
              (1 - 1) * normScore (bm25_search logf s q (max top_k 20) nsp tA tB (3/2)
                (3/4)) i)))).take top_k).map (fun p => p.1) =
          (semantic_search e s q top_k nsp tA tB).map (fun p => p.1)
      rw [hsemfull, hkeys, hsemtop]
      have hmapeq : ((pySortDesc (fun p => p.2) (semSims e s q nsp tA tB)).map
          (fun p => p.1)).map
          (fun i => (i, 1 * normScore (pySortDesc (fun p => p.2)
              (semSims e s q nsp tA tB)) i +
            (1 - 1) * normScore (bm25_search logf s q (max top_k 20) nsp tA tB
              (3/2) (3/4)) i)) =
          ((pySortDesc (fun p => p.2) (semSims e s q nsp tA tB)).map (fun p => p.1)).map
          (fun i => (i, normScore (pySortDesc (fun p => p.2)
            (semSims e s q nsp tA tB)) i)) := by
        refine List.map_congr_left ?_
        intro i _
        show (i, 1 * normScore (pySortDesc (fun p => p.2)
              (semSims e s q nsp tA tB)) i +
            (1 - 1) * normScore (bm25_search logf s q (max top_k 20) nsp tA tB
              (3/2) (3/4)) i) =
          (i, normScore (pySortDesc (fun p => p.2) (semSims e s q nsp tA tB)) i)
        have hr : (1 : ℚ) * normScore (pySortDesc (fun p => p.2)
              (semSims e s q nsp tA tB)) i +
            (1 - 1) * normScore (bm25_search logf s q (max top_k 20) nsp tA tB
              (3/2) (3/4)) i =
            normScore (pySortDesc (fun p => p.2) (semSims e s q nsp tA tB)) i := by
          ring
        rw [hr]
      rw [hmapeq]
      exact norm_rank_core (pySortDesc (fun p => p.2) (semSims e s q nsp tA tB))
        (pySortDesc (fun p => p.2) (semSims e s q nsp tA tB)) (List.Perm.refl _)
        (pySortDesc_sorted (fun p => p.2) (semSims e s q nsp tA tB))
        hD_ids_nodup hD_scores_nodup hD_ne top_k
    · intro hpos hndb
      have hfilter_all : bm25Scores logf s q nsp tA tB (3/2) (3/4) =
          (searchMask s nsp tA tB).map
            (fun p => (p.1, bm25_chunk_score logf s p.2 (tokenize q) (3/2) (3/4))) := by
        unfold bm25Scores
        refine List.filter_eq_self.2 ?_
        intro x hx
        obtain ⟨p, hp, he⟩ := List.mem_map.1 hx
        rw [← he]
        exact decide_eq_true (hpos p hp)
      have hbmlen : (bm25Scores logf s q nsp tA tB (3/2) (3/4)).length =
          (searchMask s nsp tA tB).length := by
        rw [hfilter_all]
        exact List.length_map _ _
      have hbmne : bm25Scores logf s q nsp tA tB (3/2) (3/4) ≠ [] := by
        intro h
        apply hm
        refine List.length_eq_zero.1 ?_
        rw [← hbmlen, h]
        rfl
      have hDbmperm := pySortDesc_perm (fun p => p.2)
        (bm25Scores logf s q nsp tA tB (3/2) (3/4))
      have hbm_ids : (bm25Scores logf s q nsp tA tB (3/2) (3/4)).map (fun p => p.1) =
          (searchMask s nsp tA tB).map (fun p => p.1) := by
        rw [hfilter_all, List.map_map]
        rfl
      have hDbm_ids_perm : List.Perm
          ((pySortDesc (fun p => p.2) (bm25Scores logf s q nsp tA tB (3/2) (3/4))).map
            (fun p => p.1))
          ((searchMask s nsp tA tB).map (fun p => p.1)) := by
        rw [← hbm_ids]
        exact List.Perm.map (fun p : Nat × ℚ => p.1) hDbmperm
      have hDbm_ids_nodup :
          ((pySortDesc (fun p => p.2) (bm25Scores logf s q nsp tA tB (3/2) (3/4))).map
            (fun p => p.1)).Nodup :=
        (hDbm_ids_perm.nodup_iff).2 (searchMask_ids_nodup s nsp tA tB)
      have hDbm_scores_nodup :
          ((pySortDesc (fun p => p.2) (bm25Scores logf s q nsp tA tB (3/2) (3/4))).map
            (fun p => p.2)).Nodup :=
        ((List.Perm.map (fun p : Nat × ℚ => p.2) hDbmperm).nodup_iff).2 hndb
      have hDbm_ne : pySortDesc (fun p => p.2)
          (bm25Scores logf s q nsp tA tB (3/2) (3/4)) ≠ [] := by
        intro h
        apply hbmne
        have hlen := hDbmperm.length_eq
        rw [h] at hlen
        exact List.length_eq_zero.1 hlen.symm
      have hbmfull : bm25_search logf s q (max top_k 20) nsp tA tB (3/2) (3/4) =
          pySortDesc (fun p => p.2) (bm25Scores logf s q nsp tA tB (3/2) (3/4)) := by
        unfold bm25_search
        rw [if_neg hcneg, if_neg hmneg]
        refine List.take_of_length_le ?_
        rw [hDbmperm.length_eq, hbmlen]
        exact le_trans hmask (le_max_right top_k 20)
      have hbmtop : bm25_search logf s q top_k nsp tA tB (3/2) (3/4) =
          (pySortDesc (fun p => p.2)
            (bm25Scores logf s q nsp tA tB (3/2) (3/4))).take top_k := by
        unfold bm25_search
        rw [if_neg hcneg, if_neg hmneg]
      show ((pySortDesc (fun p => p.2)
          ((keyUnion (semantic_search e s q (max top_k 20) nsp tA tB)
              (bm25_search logf s q (max top_k 20) nsp tA tB (3/2) (3/4))).map
            (fun i => (i, 0 * normScore (semantic_search e s q (max top_k 20) nsp tA tB) i +
              (1 - 0) * normScore (bm25_search logf s q (max top_k 20) nsp tA tB (3/2)
                (3/4)) i)))).take top_k).map (fun p => p.1) =
          (bm25_search logf s q top_k nsp tA tB (3/2) (3/4)).map (fun p => p.1)
      rw [hsemfull, hkeys, hbmfull, hbmtop]
      have hmapeq0 : ((pySortDesc (fun p => p.2) (semSims e s q nsp tA tB)).map
          (fun p => p.1)).map
          (fun i => (i, 0 * normScore (pySortDesc (fun p => p.2)
              (semSims e s q nsp tA tB)) i +
            (1 - 0) * normScore (pySortDesc (fun p => p.2)
              (bm25Scores logf s q nsp tA tB (3/2) (3/4))) i)) =
          ((pySortDesc (fun p => p.2) (semSims e s q nsp tA tB)).map (fun p => p.1)).map
          (fun i => (i, normScore (pySortDesc (fun p => p.2)
            (bm25Scores logf s q nsp tA tB (3/2) (3/4))) i)) := by
        refine List.map_congr_left ?_
        intro i _
        show (i, 0 * normScore (pySortDesc (fun p => p.2)
              (semSims e s q nsp tA tB)) i +
            (1 - 0) * normScore (pySortDesc (fun p => p.2)
              (bm25Scores logf s q nsp tA tB (3/2) (3/4))) i) =
          (i, normScore (pySortDesc (fun p => p.2)
            (bm25Scores logf s q nsp tA tB (3/2) (3/4))) i)
        have hr : (0 : ℚ) * normScore (pySortDesc (fun p => p.2)
              (semSims e s q nsp tA tB)) i +
            (1 - 0) * normScore (pySortDesc (fun p => p.2)
              (bm25Scores logf s q nsp tA tB (3/2) (3/4))) i =
            normScore (pySortDesc (fun p => p.2)
              (bm25Scores logf s q nsp tA tB (3/2) (3/4))) i := by
          ring
        rw [hr]
      rw [hmapeq0]
      exact norm_rank_core (pySortDesc (fun p => p.2) (semSims e s q nsp tA tB))
        (pySortDesc (fun p => p.2) (bm25Scores logf s q nsp tA tB (3/2) (3/4)))
        (hD_ids_perm.trans hDbm_ids_perm.symm)
        (pySortDesc_sorted (fun p => p.2) (bm25Scores logf s q nsp tA tB (3/2) (3/4)))
        hDbm_ids_nodup hDbm_scores_nodup hDbm_ne top_k

/-- C3 (counterexample to the literal claim): over the fixture corpus,
hybrid search at `alpha = 0` does not return the lexical-only ranking. The
`banana` chunk scores `0` under BM25 and is absent from the lexical list,
but the hybrid id pool keeps it and `alpha = 0` assigns it the blended
score `0`, so it is appended after the lexical hits instead of being
dropped. -/
theorem hybrid_alpha_zero_not_lexical :
    ¬ ((hybrid_search unitEmbed linLog fruitStore "apple" 2 0 none none none).map
        (fun p => p.1) =
      (bm25_search linLog fruitStore "apple" 2 none none none (3/2) (3/4)).map
        (fun p => p.1)) := by
  decide

/-- Embedding fixture over `ℚ`: the query `"apple"` encodes to `5`, the
cosine is the product, and the chunk vectors are read from the store cache. -/
def appleEmbed : EmbedModel ℚ :=
  { encode := fun t => if t = "apple" then 5 else 1, cos := fun a b => a * b }

/-- Two-chunk corpus with cached vectors whose query similarities are
distinct and whose BM25 scores for `"apple"` are positive and distinct. -/
def appleStore : Store ℚ :=
  { chunks := [
      { id := "e:0", text := "apple", meta := default, vec := some 2 },
      { id := "e:1", text := "apple apple", meta := default, vec := some 3 }],
    docs := [("e", { doc_id := "e", nsp := none, tags := [], count := 2,
                     created_at := 0 })] }

/-- Witness for C3 (amended): over the two-chunk fixture, the hypotheses of
the endpoint theorem hold by evaluation and both endpoint reductions are
realized concretely. -/
theorem hybrid_alpha_endpoints_witness :
    (hybrid_search appleEmbed linLog appleStore "apple" 2 1 none none none).map
        (fun p => p.1) =
      (semantic_search appleEmbed appleStore "apple" 2 none none none).map
        (fun p => p.1) ∧
    (hybrid_search appleEmbed linLog appleStore "apple" 2 0 none none none).map
        (fun p => p.1) =
      (bm25_search linLog appleStore "apple" 2 none none none (3/2) (3/4)).map
        (fun p => p.1) := by
  have h := hybrid_alpha_endpoints appleEmbed linLog appleStore "apple" 2
    none none none (by decide)
  exact ⟨h.1 (by decide), h.2 (by decide) (by decide)⟩

end CommuniverseRag
